import Mathlib

/-!
Key-path resolution in YAML documents (`pkg/yaml/main.go`).

A shallow embedding of `isPositionKey`, `getPositionKeyValue`, `replace`,
`Yaml.Condition` and `Yaml.Target`, followed by theorems about them.

Conventions of the embedding

* A `*yaml.Node` tree is a value of `Node`; the fields kept are those the
  source reads or writes, among them the ones `SetString` writes (`Kind`,
  `Value`, `Column`, `Content`, `Tag`, `Style`).  The in-place mutation done
  by `SetString` is rendered by returning the updated tree.
* Go `int` is `Int`; the two arithmetic steps that can overflow
  (`position*2` and `-1`) are wrapped to 64 bits by `wrap64`.
* A run-time panic (index out of range) is the outcome `Outcome.panic`.
* `fmt.Println`/`fmt.Printf` only write to standard output and are left out.
* Go strings are taken to be valid UTF-8, so that `SetString` stores the
  text unchanged.
-/

namespace Updatecli

/-! ## Data model -/

/-- The node kinds of `yaml.v3`; `zeroKind` is the kind of the zero `Node`. -/
inductive Kind where
  | zeroKind
  | DocumentNode
  | SequenceNode
  | MappingNode
  | ScalarNode
  | AliasNode
  deriving DecidableEq, Repr

/-- A `yaml.Node`, restricted to the fields that `replace` reads and that
`SetString` writes; `style` is the bit mask of `yaml.Style`.  The remaining
fields of `yaml.Node` (`Anchor`, `Alias`, the comments and `Line`) are neither
read nor written by the package nor by `SetString`. -/
inductive Node where
  | mk (kind : Kind) (value : String) (column : Int) (content : List Node)
      (tag : String) (style : Nat)
  deriving Repr

/-- Field `Kind`. -/
def Node.Kind : Node → Kind
  | .mk k _ _ _ _ _ => k

/-- Field `Value`. -/
def Node.Value : Node → String
  | .mk _ v _ _ _ _ => v

/-- Field `Column`. -/
def Node.Column : Node → Int
  | .mk _ _ c _ _ _ => c

/-- Field `Content`. -/
def Node.Content : Node → List Node
  | .mk _ _ _ cs _ _ => cs

/-- Field `Tag`. -/
def Node.Tag : Node → String
  | .mk _ _ _ _ t _ => t

/-- Field `Style`. -/
def Node.Style : Node → Nat
  | .mk _ _ _ _ _ s => s

/-- `yaml.LiteralStyle`. -/
def LiteralStyle : Nat := 8

/-- `yaml.FlowStyle`. -/
def FlowStyle : Nat := 32

/-- `n.SetString(s)` of `yaml.v3`, for a string that is valid UTF-8 (as every
`String` is): the node becomes a scalar with value `s` and tag `!!str`, and
its style becomes the literal style when `s` holds a line break. -/
def Node.SetString (n : Node) (s : String) : Node :=
  .mk Kind.ScalarNode s n.Column n.Content "!!str"
    (if s.toList.contains '\n' then LiteralStyle else n.Style)

/-- The node with its children replaced (children are updated in place in the
source; the node itself keeps its kind, value, column, tag and style). -/
def Node.withContent (n : Node) (cs : List Node) : Node :=
  .mk n.Kind n.Value n.Column cs n.Tag n.Style

mutual
/-- Height of a tree: the number of nodes on its longest branch. -/
def Node.height : Node → Nat
  | .mk _ _ _ cs _ _ => heightList cs + 1
/-- Largest height among a list of trees. -/
def heightList : List Node → Nat
  | [] => 0
  | c :: cs => max c.height (heightList cs)
end

/-! ## Machine integers -/

/-- Two's complement wrap-around of a Go `int` (64 bits). -/
def wrap64 (x : Int) : Int := (x + 2 ^ 63) % 2 ^ 64 - 2 ^ 63

/-- Slice indexing `s[i]` with a Go `int`: `none` stands for the
index-out-of-range panic. -/
def elemAt {α : Type} (s : List α) (i : Int) : Option α :=
  if i < 0 then none else s.get? i.toNat

/-! ## Path grammar -/

/-- `[[:digit:]]`. -/
def isDigit (c : Char) : Bool := 48 ≤ c.toNat && c.toNat ≤ 57

/-- `[[:alnum:]]`. -/
def isAlnum (c : Char) : Bool :=
  isDigit c || (65 ≤ c.toNat && c.toNat ≤ 90) || (97 ≤ c.toNat && c.toNat ≤ 122)

/-- The class `[[[:digit:]]` of the pattern of `isPositionKey`: an opening
bracket or a digit. -/
def isBracketOrDigit (c : Char) : Bool := c == '[' || isDigit c

/-- `isPositionKey`: does `key` match `^[[:alnum:]]*[[[:digit:]]*]$`?  The
pattern reads: alphanumerics, then characters of the class "opening bracket
or digit", then one closing bracket at the end of the text. -/
def isPositionKey (key : String) : Bool :=
  match key.toList.reverse with
  | ']' :: r => (r.reverse.dropWhile isAlnum).all isBracketOrDigit
  | _ => false

/-- `FindStringSubmatch` for `^([[:alnum:]]*)\[([[:digit:]]*)\]$`: the two
patterns compiled in `getPositionKeyValue` accept the same strings and differ
only in the group they capture; `none` is the `nil` result of a failed
match. -/
def findSubmatch (k : String) : Option (String × String) :=
  match k.toList.dropWhile isAlnum with
  | '[' :: r =>
    if r.dropWhile isDigit = [']'] then
      some (String.mk (k.toList.takeWhile isAlnum), String.mk (r.takeWhile isDigit))
    else none
  | _ => none

/-- The errors `getPositionKeyValue` can return. -/
inductive SegmentError where
  /-- `Error: key '%s' cannot contains yaml special characters` -/
  | invalidSegment (token : String)
  /-- `strconv.Atoi: parsing %q: invalid syntax` -/
  | atoiSyntax (text : String)
  /-- `strconv.Atoi: parsing %q: value out of range` -/
  | atoiRange (text : String)
  deriving DecidableEq, Repr

/-- Decimal value of a string of digits. -/
def digitsValue (cs : List Char) : Nat :=
  cs.foldl (fun acc c => 10 * acc + (c.toNat - 48)) 0

/-- `strconv.Atoi` on a string of decimal digits (the only inputs it receives
here). -/
def atoi (s : String) : Except SegmentError Int :=
  if s.toList = [] then .error (.atoiSyntax s)
  else if digitsValue s.toList ≤ 2 ^ 63 - 1 then .ok (digitsValue s.toList)
  else .error (.atoiRange s)

/-- The characters refused in a bare identifier. -/
def specialChars : List Char := "_?:,[]\x7b\x7d#&*!|>`\"%".toList

/-- `strings.ContainsAny`. -/
def containsAny (s : String) (chars : List Char) : Bool :=
  s.toList.any (fun c => chars.contains c)

/-- The three results of `getPositionKeyValue`. -/
structure KeyPosition where
  key : String
  position : Int
  err : Option SegmentError
  deriving DecidableEq, Repr

/-- `getPositionKeyValue`; `none` is the panic of `keys[1]` on a `nil`
submatch. -/
def getPositionKeyValue (k : String) : Option KeyPosition :=
  if isPositionKey k then
    match findSubmatch k with
    | none => none
    | some (key, digits) =>
      match atoi digits with
      | .error e => some ⟨"", -1, some e⟩
      | .ok position => some ⟨key, position, none⟩
  else if containsAny k specialChars then
    some ⟨"", -1, some (.invalidSegment k)⟩
  else
    some ⟨k, -1, none⟩

/-! ## Tree matcher -/

/-- What a call of `replace` (or its loop) produces: the three results
together with the tree as the call leaves it, or a panic.  `starved` is the
result of the bounded recursion when its bound is used up; `replace` never
produces it (`replaceFuel_ne_starved`). -/
inductive Outcome (α : Type) where
  | ret (found : Bool) (oldVersion : String) (column : Int) (tree : α)
  | panic
  | starved
  deriving Repr

/-- Rebuild the tree carried by an outcome. -/
def Outcome.map {α β : Type} (f : α → β) : Outcome α → Outcome β
  | .ret b o c t => .ret b o c (f t)
  | .panic => .panic
  | .starved => .starved

/-- An outcome that is not `starved` and whose tree, if any, has height at
most `H`. -/
def Outcome.within {α : Type} (size : α → Nat) (H : Nat) : Outcome α → Prop
  | .ret _ _ _ t => size t ≤ H
  | .panic => True
  | .starved => False

/-- `positionIndex` as computed from `position` (twice in the source). -/
def positionIndex (position : Int) : Int :=
  if wrap64 (wrap64 (position * 2) - 1) ≥ 0 then wrap64 (wrap64 (position * 2) - 1) else 0

/-- The local variables the `for` loop of `replace` reads and writes. -/
structure LoopState where
  keys : List String
  key : String
  position : Int
  column : Int
  valueFound : Bool
  oldVersion : String

/-- The `for index, content := range entry.Content` loop of `replace`.
`n` is the number of iterations left, `index` the loop index and `content`
the children of `entry` in their current state; `rec` is `replace` itself. -/
def replaceLoop (rec : Node → List String → String → Int → Outcome Node)
    (version : String) (columnRef : Int) :
    Nat → Nat → List Node → LoopState → Outcome (List Node)
  | 0, _, content, st => .ret st.valueFound st.oldVersion st.column content
  | n + 1, index, content, st =>
    match content.get? index with
    | none => .ret st.valueFound st.oldVersion st.column content
    | some c =>
      if index % 2 = 0 ∧ c.Value = st.key ∧ c.Column = columnRef then
        if st.keys.length > 1 then
          let keys := st.keys.tail
          match content.get? (index + 1) with
          | none => .panic
          | some next =>
            let column := next.Column
            if next.Kind = Kind.SequenceNode then
              match next.Content.head? with
              | none => .panic
              | some first =>
                if first.Kind = Kind.MappingNode then
                  if positionIndex st.position > next.Content.length then
                    .ret false "" 0 content
                  else
                    match elemAt next.Content (positionIndex st.position) with
                    | none => .panic
                    | some elem =>
                      match rec elem keys version elem.Column with
                      | .panic => .panic
                      | .starved => .starved
                      | .ret valueFound oldVersion column elem' =>
                        match keys.head?.bind getPositionKeyValue with
                        | none => .panic
                        | some kp =>
                          replaceLoop rec version columnRef n (index + 1)
                            (content.set (index + 1)
                              (next.withContent
                                (next.Content.set (positionIndex st.position).toNat elem')))
                            ⟨keys, kp.key, kp.position, column, valueFound, oldVersion⟩
                else
                  match keys.head?.bind getPositionKeyValue with
                  | none => .panic
                  | some kp =>
                    replaceLoop rec version columnRef n (index + 1) content
                      ⟨keys, kp.key, kp.position, column, st.valueFound, st.oldVersion⟩
            else
              match keys.head?.bind getPositionKeyValue with
              | none => .panic
              | some kp =>
                replaceLoop rec version columnRef n (index + 1) content
                  ⟨keys, kp.key, kp.position, column, st.valueFound, st.oldVersion⟩
        else
          match content.get? (index + 1) with
          | none => .panic
          | some next =>
            if next.Kind = Kind.ScalarNode then
              .ret true next.Value next.Column (content.set (index + 1) (next.SetString version))
            else if next.Kind = Kind.SequenceNode then
              if (next.Content.length : Int) < st.position then
                .ret false "" 0 content
              else
                match elemAt next.Content st.position with
                | none => .panic
                | some e => .ret true e.Value e.Column content
            else
              replaceLoop rec version columnRef n (index + 1) content st
      else
        if c.Kind = Kind.MappingNode then
          match rec c st.keys version st.column with
          | .panic => .panic
          | .starved => .starved
          | .ret valueFound oldVersion column c' =>
            if c'.Column < column then
              .ret valueFound oldVersion column (content.set index c')
            else
              replaceLoop rec version columnRef n (index + 1) (content.set index c')
                { st with column := column, valueFound := valueFound, oldVersion := oldVersion }
        else
          if c.Column < st.column then
            .ret st.valueFound st.oldVersion st.column content
          else
            replaceLoop rec version columnRef n (index + 1) content st

/-- The branch of `replace` taken when the document starts with a sequence
and the first key has the array position format. -/
def replaceRootSequence (rec : Node → List String → String → Int → Outcome Node)
    (entry seq first : Node) (keys : List String) (version : String) (position : Int) :
    Outcome Node :=
  if first.Kind = Kind.MappingNode then
    if keys.length > 1 then
      if (seq.Content.length : Int) < positionIndex position then
        .ret false "" 0 entry
      else
        match elemAt seq.Content (positionIndex position) with
        | none => .panic
        | some elem =>
          (rec elem keys.tail version elem.Column).map
            (fun elem' => entry.withContent
              ((seq.withContent (seq.Content.set (positionIndex position).toNat elem'))
                :: entry.Content.tail))
    else
      if (seq.Content.length : Int) < position then
        .ret false "" 0 entry
      else
        match elemAt seq.Content position with
        | none => .panic
        | some e => .ret true e.Value e.Column entry
  else if first.Kind = Kind.ScalarNode ∧ keys.length = 1 then
    if (seq.Content.length : Int) < position then
      .ret false "" 0 entry
    else
      match elemAt seq.Content position with
      | none => .panic
      | some e => .ret true e.Value e.Column entry
  else
    .ret false "" 0 entry

/-- The body of `replace`, with the recursive calls made through `rec`. -/
def replaceBody (rec : Node → List String → String → Int → Outcome Node)
    (entry : Node) (keys : List String) (version : String) (columnRef : Int) : Outcome Node :=
  match keys with
  | [] => .panic
  | k0 :: _ =>
    match getPositionKeyValue k0 with
    | none => .panic
    | some kp =>
      if entry.Kind = Kind.DocumentNode then
        match entry.Content.head? with
        | none => .panic
        | some seq =>
          if seq.Kind = Kind.SequenceNode ∧ isPositionKey k0 then
            match seq.Content.head? with
            | none => .panic
            | some first => replaceRootSequence rec entry seq first keys version kp.position
          else
            (replaceLoop rec version columnRef entry.Content.length 0 entry.Content
              ⟨keys, kp.key, kp.position, columnRef, false, ""⟩).map entry.withContent
      else
        (replaceLoop rec version columnRef entry.Content.length 0 entry.Content
          ⟨keys, kp.key, kp.position, columnRef, false, ""⟩).map entry.withContent

/-- `replace` with its recursion depth bounded by the first argument. -/
def replaceFuel : Nat → Node → List String → String → Int → Outcome Node
  | 0, _, _, _, _ => .starved
  | fuel + 1, entry, keys, version, columnRef =>
    replaceBody (replaceFuel fuel) entry keys version columnRef

/-- `replace(entry, keys, version, columnRef)`: every recursive call is made
on a node strictly inside `entry`, so the height of `entry` bounds the
depth of the recursion. -/
def replace (entry : Node) (keys : List String) (version : String) (columnRef : Int) :
    Outcome Node :=
  replaceFuel entry.height entry keys version columnRef

/-! ## Session facade -/

/-- Split a list of characters at every dot. -/
def splitDots : List Char → List (List Char)
  | [] => [[]]
  | c :: cs =>
    if c = '.' then [] :: splitDots cs
    else
      match splitDots cs with
      | [] => [[c]]
      | seg :: segs => (c :: seg) :: segs

/-- `strings.Split(s, ".")`. -/
def split (s : String) : List String :=
  (splitDots s.toList).map String.mk

/-- The receiver of `Condition` and `Target`. -/
structure Yaml where
  Path : String
  File : String
  Key : String
  Value : String
  DryRun : Bool

/-- `Yaml.Condition` once the file is read and unmarshalled into `out`
(`ReadFile` and `yaml.Unmarshal` succeeded).  `none`: the call of `replace`
does not return (it panics). -/
def Condition (y : Yaml) (out : Node) : Option Bool :=
  match replace out (split y.Key) y.Value 1 with
  | .ret valueFound oldVersion _ _ =>
    if valueFound ∧ oldVersion = y.Value then some true
    else if valueFound ∧ oldVersion ≠ y.Value then some true
    else some false
  | .panic => none
  | .starved => none

/-- What `Target` leaves behind: its result `changed`, the tree in memory, and
the tree encoded into the file when the file is rewritten. -/
structure TargetResult where
  changed : Bool
  out : Node
  written : Option Node

/-- `Yaml.Target` once the file is read and unmarshalled into `out`, with
`os.Create` and `Encode` succeeding.  `none`: the call of `replace` panics. -/
def Target (y : Yaml) (out : Node) : Option TargetResult :=
  match replace out (split y.Key) y.Value 1 with
  | .ret valueFound oldVersion _ out' =>
    if valueFound then
      if oldVersion = y.Value then some ⟨false, out', none⟩
      else if !y.DryRun then some ⟨true, out', some out'⟩
      else some ⟨true, out', none⟩
    else some ⟨false, out', none⟩
  | .panic => none
  | .starved => none

/-! ## Sample documents -/

/-- A plain scalar node that holds a string (tag `!!str`); this is also what
`SetString` leaves behind. -/
def scalar (value : String) (column : Int) : Node :=
  .mk Kind.ScalarNode value column [] "!!str" 0

/-- A plain scalar node that holds an integer (tag `!!int`). -/
def integer (value : String) (column : Int) : Node :=
  .mk Kind.ScalarNode value column [] "!!int" 0

/-- A block mapping node; `pairs` alternates keys and values. -/
def mapping (column : Int) (pairs : List Node) : Node :=
  .mk Kind.MappingNode "" column pairs "!!map" 0

/-- A flow mapping node (`{...}`). -/
def flowMapping (column : Int) (pairs : List Node) : Node :=
  .mk Kind.MappingNode "" column pairs "!!map" FlowStyle

/-- A block sequence node. -/
def sequence (column : Int) (items : List Node) : Node :=
  .mk Kind.SequenceNode "" column items "!!seq" 0

/-- A flow sequence node (`[...]`). -/
def flowSequence (column : Int) (items : List Node) : Node :=
  .mk Kind.SequenceNode "" column items "!!seq" FlowStyle

/-- A document node. -/
def document (root : Node) : Node := .mk Kind.DocumentNode "" 1 [root] "" 0

/-- The root mapping of
```
a:
  b: 1
  c:
    d: 2
```
-/
def rootNested : Node :=
  mapping 1 [scalar "a" 1, mapping 3 [scalar "b" 3, integer "1" 6,
    scalar "c" 3, mapping 5 [scalar "d" 5, integer "2" 8]]]

/-- The document whose root is `rootNested`. -/
def docNested : Node := document rootNested

/-- `docNested` with the value of `d` set to `3`. -/
def docNestedSet : Node :=
  document (mapping 1 [scalar "a" 1, mapping 3 [scalar "b" 3, integer "1" 6,
    scalar "c" 3, mapping 5 [scalar "d" 5, scalar "3" 8]]])

/-- The root mapping of
```
a:
  name: inner
name: outer
```
-/
def rootScoped : Node :=
  mapping 1 [scalar "a" 1, mapping 3 [scalar "name" 3, scalar "inner" 9],
    scalar "name" 1, scalar "outer" 7]

/-- The root mapping of
```
a: &x
  b: 1
```
With an anchor in front of it, the nested mapping node sits at the column of
the anchor (4), while its key `b` is at column 3. -/
def rootAnchored : Node :=
  mapping 1 [scalar "a" 1, mapping 4 [scalar "b" 3, integer "1" 6]]

/-- The root mapping of
```
a:
  my_name: inner
my_name: outer
```
-/
def rootUnderscore : Node :=
  mapping 1 [scalar "a" 1, mapping 3 [scalar "my_name" 3, scalar "inner" 12],
    scalar "my_name" 1, scalar "outer" 10]

/-- The parse of
```
a:
  b: 1
q: 5
```
-/
def docSibling : Node :=
  document (mapping 1 [scalar "a" 1, mapping 3 [scalar "b" 3, integer "1" 6],
    scalar "q" 1, integer "5" 4])

/-- `docSibling` with the root key `q` set to `3`. -/
def docSiblingRootSet : Node :=
  document (mapping 1 [scalar "a" 1, mapping 3 [scalar "b" 3, integer "1" 6],
    scalar "q" 1, scalar "3" 4])

/-- One element `- name: <name>` / `version: ...` of a block sequence
indented by two, with the node of the version given. -/
def releaseWith (name : String) (version : Node) : Node :=
  mapping 5 [scalar "name" 5, scalar name 11, scalar "version" 5, version]

/-- One element `- name: <name>` / `version: <version>` with an integer
version, as parsed. -/
def release (name version : String) : Node := releaseWith name (integer version 14)

/-- The parse of
```
list:
  - name: x
    version: 1
  - name: y
    version: 2
  - name: z
    version: 3
  - name: w
    version: 4
```
-/
def docReleases : Node :=
  document (mapping 1 [scalar "list" 1,
    sequence 3 [release "x" "1", release "y" "2", release "z" "3", release "w" "4"]])

/-- `docReleases` with the version of its first element set to `5`. -/
def docReleasesFirst : Node :=
  document (mapping 1 [scalar "list" 1,
    sequence 3 [releaseWith "x" (scalar "5" 14), release "y" "2", release "z" "3",
      release "w" "4"]])

/-- `docReleases` with the version of its second element set to `5`. -/
def docReleasesSecond : Node :=
  document (mapping 1 [scalar "list" 1,
    sequence 3 [release "x" "1", releaseWith "y" (scalar "5" 14), release "z" "3",
      release "w" "4"]])

/-- `docReleases` with the version of its fourth element set to `5`. -/
def docReleasesFourth : Node :=
  document (mapping 1 [scalar "list" 1,
    sequence 3 [release "x" "1", release "y" "2", release "z" "3",
      releaseWith "w" (scalar "5" 14)]])

/-- The parse of
```
my-list:
  - name: x
    version: 1
```
-/
def docHyphen : Node :=
  document (mapping 1 [scalar "my-list" 1, sequence 3 [release "x" "1"]])

/-- `docHyphen` with the version of its element set to `5`. -/
def docHyphenSet : Node :=
  document (mapping 1 [scalar "my-list" 1, sequence 3 [releaseWith "x" (scalar "5" 14)]])

/-- One element `- name: <name>` / `version: ...` of a block sequence at the
root of a document, with the node of the version given. -/
def rootReleaseWith (name : String) (version : Node) : Node :=
  mapping 3 [scalar "name" 3, scalar name 9, scalar "version" 3, version]

/-- One element `- name: <name>` / `version: <version>` of a block sequence
at the root of a document, with an integer version, as parsed. -/
def rootRelease (name version : String) : Node :=
  rootReleaseWith name (integer version 12)

/-- The parse of
```
- name: x
  version: 1
- name: y
  version: 2
- name: z
  version: 3
- name: w
  version: 4
```
-/
def docRootReleases : Node :=
  document (sequence 1 [rootRelease "x" "1", rootRelease "y" "2", rootRelease "z" "3",
    rootRelease "w" "4"])

/-- `docRootReleases` with the version of its fourth element set to `5`. -/
def docRootReleasesFourth : Node :=
  document (sequence 1 [rootRelease "x" "1", rootRelease "y" "2", rootRelease "z" "3",
    rootReleaseWith "w" (scalar "5" 12)])

/-- The parse of
```
list:
  - x
  - y
```
-/
def docItems : Node :=
  document (mapping 1 [scalar "list" 1, sequence 3 [scalar "x" 5, scalar "y" 5]])

/-- The request to set `list[1]` to `z`. -/
def requestItem : Yaml := ⟨"", "", "list[1]", "z", false⟩

/-- The parse of
```
list: []
```
-/
def docEmptyList : Node :=
  document (mapping 1 [scalar "list" 1, flowSequence 7 []])

/-- The parse of
```
a: 1
```
-/
def docSingle : Node :=
  document (mapping 1 [scalar "a" 1, integer "1" 4])

/-- `docSingle` after `SetString` has written the text `1` again: the value
is the same, the tag is `!!str`. -/
def docSingleRetagged : Node :=
  document (mapping 1 [scalar "a" 1, scalar "1" 4])

/-- `docSingle` with the value of `a` set to `2`. -/
def docSingleSet : Node :=
  document (mapping 1 [scalar "a" 1, scalar "2" 4])

/-- The parse of
```
a: {name: inner}
name: outer
```
The flow mapping node sits at the column of its opening brace, its key one
column further. -/
def docFlow : Node :=
  document (mapping 1 [scalar "a" 1, flowMapping 4 [scalar "name" 5, scalar "inner" 11],
    scalar "name" 1, scalar "outer" 7])

/-- `docFlow` with the root key `name` set to `new`. -/
def docFlowRootSet : Node :=
  document (mapping 1 [scalar "a" 1, flowMapping 4 [scalar "name" 5, scalar "inner" 11],
    scalar "name" 1, scalar "new" 7])

/-- A document in which a flow mapping goes on at column 1 of the next line:
```
x: {
k: 1}
k: 2
```
The flow mapping node is at column 4, its key `k` at column 1. -/
def docTwice : Node :=
  document (mapping 1 [scalar "x" 1, flowMapping 4 [scalar "k" 1, integer "1" 4],
    scalar "k" 1, integer "2" 4])

/-- `docTwice` with both scalars paired with a key `k` set to `9`. -/
def docTwiceBothSet : Node :=
  document (mapping 1 [scalar "x" 1, flowMapping 4 [scalar "k" 1, scalar "9" 4],
    scalar "k" 1, scalar "9" 4])

/-- A document in which a flow mapping goes on at column 1 of the next lines:
```
x: {
k:
1}
y:
  z: 3
```
The flow mapping node is at column 4, its key `k` and the value `1` at
column 1. -/
def docLost : Node :=
  document (mapping 1 [scalar "x" 1, flowMapping 4 [scalar "k" 1, integer "1" 1],
    scalar "y" 1, mapping 3 [scalar "z" 3, integer "3" 6]])

/-- `docLost` with the scalar paired with the key `k` set to `9`. -/
def docLostSet : Node :=
  document (mapping 1 [scalar "x" 1, flowMapping 4 [scalar "k" 1, scalar "9" 1],
    scalar "y" 1, mapping 3 [scalar "z" 3, integer "3" 6]])

/-! ## Block-mapping documents and path lookup -/

mutual
/-- A block mapping as the parser delivers it: a mapping node with empty
`Value`, whose keys are scalars at the column of the node and whose values
sit at a strictly greater column (a sequence may also start at the column of
its key), nested mappings being block mappings again. -/
def blockMapping : Node → Bool
  | .mk kind value column content _ _ =>
    kind == Kind.MappingNode && value == "" && blockPairs column content
/-- The key/value pairs of a block mapping whose keys are at column `c`. -/
def blockPairs (c : Int) : List Node → Bool
  | [] => true
  | [_] => false
  | key :: value :: rest =>
    key.Kind == Kind.ScalarNode && key.Column == c && decide (c ≤ value.Column)
      && (value.Kind == Kind.SequenceNode || decide (c < value.Column))
      && (value.Kind != Kind.MappingNode || blockMapping value)
      && blockPairs c rest
end

/-- The value paired with the first key named `k` in a list of alternating
keys and values. -/
def lookupPairs (k : String) : List Node → Option Node
  | key :: value :: rest => if key.Value = k then some value else lookupPairs k rest
  | _ => none

/-- The text of the scalar that a path of key names denotes: each name but
the last names a key of the current mapping whose value is a mapping, and the
last one names a key whose value is a scalar. -/
def lookup : Node → List String → Option String
  | _, [] => none
  | n, [k] =>
    match lookupPairs k n.Content with
    | some v => if v.Kind = Kind.ScalarNode then some v.Value else none
    | none => none
  | n, k :: ks =>
    match lookupPairs k n.Content with
    | some v => if v.Kind = Kind.MappingNode then lookup v ks else none
    | none => none

/-- A bare identifier: a non-empty token free of the refused characters. -/
def bareIdentifier (k : String) : Bool :=
  k != "" && !containsAny k specialChars

/-- The pairs with the value of the first key named `k` exchanged. -/
def updatePairs (k : String) (newValue : Node) : List Node → List Node
  | key :: value :: rest =>
    if key.Value = k then key :: newValue :: rest else key :: value :: updatePairs k newValue rest
  | rest => rest

/-- The value paired with the first key (child at an even index) whose text
is `k` and whose column is `c`. -/
def matchPairs (k : String) (c : Int) : List Node → Option Node
  | key :: value :: rest =>
    if key.Value = k ∧ key.Column = c then some value else matchPairs k c rest
  | _ => none

mutual
/-- The second tree is the first one up to what `SetString` writes in scalar
nodes: same kinds, same columns, same children in the same order, and the
same `Value`, `Tag` and `Style` at every node that is not a scalar. -/
def sameFrame : Node → Node → Bool
  | .mk k v c cs t s, .mk k2 v2 c2 cs2 t2 s2 =>
    k == k2 && c == c2 && (k == Kind.ScalarNode || (v == v2 && t == t2 && s == s2))
      && sameFrameList cs cs2
/-- Lists of trees of equal length, related by `sameFrame` element by
element. -/
def sameFrameList : List Node → List Node → Bool
  | [], [] => true
  | x :: xs, y :: ys => sameFrame x y && sameFrameList xs ys
  | _, _ => false
end

/-- A property of the tree of an outcome that returns; it holds of the other
outcomes. -/
def Outcome.holds {α : Type} (P : α → Prop) : Outcome α → Prop
  | .ret _ _ _ t => P t
  | .panic => True
  | .starved => True

mutual
/-- The number of places at which a node of the first tree differs from the
node of the second tree in a field of its own (`Kind`, `Value`, `Column`,
`Tag` or `Style`); the children are compared in pairs, in their order. -/
def changedNodes : Node → Node → Nat
  | .mk k v c cs t s, .mk k2 v2 c2 cs2 t2 s2 =>
    (if k = k2 ∧ v = v2 ∧ c = c2 ∧ t = t2 ∧ s = s2 then 0 else 1) + changedNodesList cs cs2
/-- The number of changed nodes, summed over the pairs of two lists of
trees. -/
def changedNodesList : List Node → List Node → Nat
  | x :: xs, y :: ys => changedNodes x y + changedNodesList xs ys
  | _, _ => 0
end

mutual
/-- Every scalar below the node that is the value of a key (a child at an odd
index of its parent) lies strictly to the right of column `b`, of the node
and of every node between the node and the scalar. -/
def valuesRight (b : Int) : Node → Bool
  | .mk _ _ column content _ _ => valuesRightList (max b column) false content
/-- The children of a node, from a child whose index is odd exactly when
`odd` is true: every scalar among them at an odd index lies to the right of
`b`, and every child satisfies `valuesRight b`. -/
def valuesRightList (b : Int) (odd : Bool) : List Node → Bool
  | [] => true
  | x :: xs =>
    (!(odd && x.Kind == Kind.ScalarNode) || decide (b < x.Column)) && valuesRight b x
      && valuesRightList b (!odd) xs
end

/-- The layout on which a find ends the search: every scalar of the tree that
is the value of a key (a child at an odd index of its parent) lies strictly to
the right of every node that contains it. -/
def valuesToTheRight (entry : Node) : Bool := valuesRight entry.Column entry

/-- The outcome of a call on `x` under the layout `valuesRight b x`: a call
that returns leaves `x` as it was, or else it has found the key, changed at
most one node and returns a column to the right of `b` and of `x`. -/
def Outcome.settled (x : Node) (b : Int) : Outcome Node → Prop
  | .ret found _ col t =>
    t = x ∨ (found = true ∧ max b x.Column < col ∧ t.Column = x.Column ∧ changedNodes x t ≤ 1)
  | .panic => True
  | .starved => True

/-- The same for the loop over the children `content` of a node. -/
def Outcome.settledList (content : List Node) (b : Int) : Outcome (List Node) → Prop
  | .ret found _ col t =>
    t = content ∨ (found = true ∧ b < col ∧ changedNodesList content t ≤ 1)
  | .panic => True
  | .starved => True

/-! ## Basic facts -/

theorem height_eq (n : Node) : n.height = heightList n.Content + 1 := by
  cases n with
  | mk k v c cs t s => simp [Node.height, Node.Content]

theorem height_le_heightList {c : Node} {cs : List Node} (h : c ∈ cs) :
    c.height ≤ heightList cs := by
  induction cs with
  | nil => cases h
  | cons x xs ih =>
    simp only [heightList]
    rcases List.mem_cons.mp h with h | h
    · subst h; exact le_max_left _ _
    · exact le_trans (ih h) (le_max_right _ _)

theorem isPositionKey_eq_false {k : String} (h : containsAny k specialChars = false) :
    isPositionKey k = false := by
  unfold isPositionKey
  split
  · next r heq =>
    exfalso
    have hmem : ']' ∈ k.toList := by
      have : ']' ∈ k.toList.reverse := by rw [heq]; exact List.mem_cons_self _ _
      exact List.mem_reverse.mp this
    have : containsAny k specialChars = true := by
      unfold containsAny
      rw [List.any_eq_true]
      exact ⟨']', hmem, by decide⟩
    rw [h] at this
    cases this
  · rfl

theorem getPositionKeyValue_bare {k : String} (h : bareIdentifier k = true) :
    getPositionKeyValue k = some ⟨k, -1, none⟩ := by
  unfold bareIdentifier at h
  simp only [Bool.and_eq_true, Bool.not_eq_true', bne_iff_ne] at h
  unfold getPositionKeyValue
  rw [isPositionKey_eq_false h.2, h.2]
  simp



/-! ## One iteration of the loop -/

theorem get?_zip (done : List Node) (c : Node) (rest : List Node) :
    (done ++ c :: rest).get? done.length = some c := by
  rw [List.get?_eq_getElem?, List.getElem?_append_right (le_refl _)]
  simp

theorem get?_zip_succ (done : List Node) (c d : Node) (rest : List Node) :
    (done ++ c :: d :: rest).get? (done.length + 1) = some d := by
  have : done ++ c :: d :: rest = (done ++ [c]) ++ d :: rest := by simp
  rw [this]
  have hl : done.length + 1 = (done ++ [c]).length := by simp
  rw [hl]
  exact get?_zip _ _ _

theorem set_zip (done : List Node) (c c' : Node) (rest : List Node) :
    (done ++ c :: rest).set done.length c' = done ++ c' :: rest := by
  simp

theorem set_zip_succ (done : List Node) (c d d' : Node) (rest : List Node) :
    (done ++ c :: d :: rest).set (done.length + 1) d' = done ++ c :: d' :: rest := by
  have : done ++ c :: d :: rest = (done ++ [c]) ++ d :: rest := by simp
  rw [this]
  have hl : done.length + 1 = (done ++ [c]).length := by simp
  rw [hl, set_zip]
  simp

/-- A child that does not match, is no mapping and is not left of the current
column is passed over. -/
theorem replaceLoop_skip (rec : Node → List String → String → Int → Outcome Node)
    (v : String) (cr : Int) (n : Nat) (done : List Node) (c : Node) (rest : List Node)
    (st : LoopState)
    (hm : ¬ (done.length % 2 = 0 ∧ c.Value = st.key ∧ c.Column = cr))
    (hk : c.Kind ≠ Kind.MappingNode) (hc : ¬ c.Column < st.column) :
    replaceLoop rec v cr (n + 1) done.length (done ++ c :: rest) st
      = replaceLoop rec v cr n (done.length + 1) (done ++ c :: rest) st := by
  rw [replaceLoop, get?_zip]
  simp only [hm, hk, hc, if_false]

/-- A mapping child that does not match and in which the search finds
nothing is passed over. -/
theorem replaceLoop_skip_mapping (rec : Node → List String → String → Int → Outcome Node)
    (v : String) (cr : Int) (n : Nat) (done : List Node) (c : Node) (rest : List Node)
    (st : LoopState)
    (hm : ¬ (done.length % 2 = 0 ∧ c.Value = st.key ∧ c.Column = cr))
    (hk : c.Kind = Kind.MappingNode)
    (hrec : rec c st.keys v st.column = .ret st.valueFound st.oldVersion st.column c)
    (hc : ¬ c.Column < st.column) :
    replaceLoop rec v cr (n + 1) done.length (done ++ c :: rest) st
      = replaceLoop rec v cr n (done.length + 1) (done ++ c :: rest) st := by
  rw [replaceLoop, get?_zip]
  simp only [hm, hk, hc, hrec, if_false, if_true, set_zip]

/-- A mapping child that does not match, in which the recursive call returns
a column to the right of the child: the loop stops with that result. -/
theorem replaceLoop_found_in (rec : Node → List String → String → Int → Outcome Node)
    (v : String) (cr : Int) (n : Nat) (done : List Node) (c c' : Node) (rest : List Node)
    (st : LoopState) (b : Bool) (o : String) (col : Int)
    (hm : ¬ (done.length % 2 = 0 ∧ c.Value = st.key ∧ c.Column = cr))
    (hk : c.Kind = Kind.MappingNode)
    (hrec : rec c st.keys v st.column = .ret b o col c')
    (hc : c'.Column < col) :
    replaceLoop rec v cr (n + 1) done.length (done ++ c :: rest) st
      = .ret b o col (done ++ c' :: rest) := by
  rw [replaceLoop, get?_zip]
  simp only [hm, hk, hc, hrec, if_false, if_true, set_zip]

/-- The key matches, it is the last segment and its value is a scalar. -/
theorem replaceLoop_match_scalar (rec : Node → List String → String → Int → Outcome Node)
    (v : String) (cr : Int) (n : Nat) (done : List Node) (c d : Node) (rest : List Node)
    (st : LoopState)
    (hm : done.length % 2 = 0 ∧ c.Value = st.key ∧ c.Column = cr)
    (hlen : ¬ st.keys.length > 1) (hk : d.Kind = Kind.ScalarNode) :
    replaceLoop rec v cr (n + 1) done.length (done ++ c :: d :: rest) st
      = .ret true d.Value d.Column (done ++ c :: d.SetString v :: rest) := by
  rw [replaceLoop, get?_zip, get?_zip_succ]
  simp only [hm, hlen, hk, if_false, if_true, set_zip_succ, and_self]

/-- The key matches, segments remain and its value is no sequence: the loop
goes on with the next segment. -/
theorem replaceLoop_match_descend (rec : Node → List String → String → Int → Outcome Node)
    (v : String) (cr : Int) (n : Nat) (done : List Node) (c d : Node) (rest : List Node)
    (st : LoopState) (kp : KeyPosition)
    (hm : done.length % 2 = 0 ∧ c.Value = st.key ∧ c.Column = cr)
    (hlen : st.keys.length > 1) (hk : d.Kind ≠ Kind.SequenceNode)
    (hkp : st.keys.tail.head?.bind getPositionKeyValue = some kp) :
    replaceLoop rec v cr (n + 1) done.length (done ++ c :: d :: rest) st
      = replaceLoop rec v cr n (done.length + 1) (done ++ c :: d :: rest)
          ⟨st.keys.tail, kp.key, kp.position, d.Column, st.valueFound, st.oldVersion⟩ := by
  rw [replaceLoop, get?_zip, get?_zip_succ]
  simp only [hm, hlen, hk, hkp, if_false, if_true, and_self]



/-! ## A search that finds nothing -/

/-- When every remaining child lies to the right of the reference column and
the recursive calls into the mappings among them find nothing, the loop finds
nothing and leaves the children as they are. -/
theorem replaceLoop_quiet (rec : Node → List String → String → Int → Outcome Node)
    (v : String) (cr : Int) (keys : List String) (key : String) (position : Int) :
    ∀ (rest done : List Node) (n : Nat),
      (∀ x ∈ rest, cr < x.Column ∧
        (x.Kind = Kind.MappingNode → rec x keys v cr = .ret false "" cr x)) →
      replaceLoop rec v cr n done.length (done ++ rest) ⟨keys, key, position, cr, false, ""⟩
        = .ret false "" cr (done ++ rest) := by
  intro rest
  induction rest with
  | nil =>
    intro done n _
    cases n with
    | zero => rw [replaceLoop]
    | succ n =>
      rw [replaceLoop]
      have : (done ++ ([] : List Node)).get? done.length = none := by simp
      rw [this]
  | cons c rest ih =>
    intro done n h
    cases n with
    | zero => rw [replaceLoop]
    | succ n =>
      have hc := h c (List.mem_cons_self _ _)
      have hrest : ∀ x ∈ rest, cr < x.Column ∧
          (x.Kind = Kind.MappingNode → rec x keys v cr = .ret false "" cr x) :=
        fun x hx => h x (List.mem_cons_of_mem _ hx)
      have hm : ¬ (done.length % 2 = 0 ∧ c.Value = key ∧ c.Column = cr) := by
        intro hh
        have := hc.1
        rw [hh.2.2] at this
        exact lt_irrefl _ this
      have hcol : ¬ c.Column < cr := not_lt.mpr (le_of_lt hc.1)
      have hnext := ih (done ++ [c]) n hrest
      have e1 : (done ++ [c]).length = done.length + 1 := by simp
      have e2 : (done ++ [c]) ++ rest = done ++ c :: rest := by simp
      rw [e1, e2] at hnext
      by_cases hk : c.Kind = Kind.MappingNode
      · rw [replaceLoop_skip_mapping rec v cr n done c rest _ hm hk (hc.2 hk) hcol]
        exact hnext
      · rw [replaceLoop_skip rec v cr n done c rest _ hm hk hcol]
        exact hnext

/-- Every child of a block mapping is at or to the right of the column of
its keys, and the mappings among the children are block mappings strictly to
the right of it. -/
theorem blockPairs_mem (c : Int) : ∀ (rest : List Node), blockPairs c rest = true →
    ∀ x ∈ rest, c ≤ x.Column ∧
      (x.Kind = Kind.MappingNode → blockMapping x = true ∧ c < x.Column)
  | [], _, x, hx => by cases hx
  | [_], h, _, _ => by simp [blockPairs] at h
  | key :: value :: rest, h, x, hx => by
    simp only [blockPairs, Bool.and_eq_true, beq_iff_eq, decide_eq_true_eq, Bool.or_eq_true,
      bne_iff_ne, ne_eq] at h
    obtain ⟨⟨⟨⟨⟨hkk, hkc⟩, hvc⟩, hvs⟩, hvm⟩, hrest⟩ := h
    rcases List.mem_cons.mp hx with hx | hx
    · subst hx
      refine ⟨le_of_eq hkc.symm, ?_⟩
      intro hk
      rw [hkk] at hk
      cases hk
    · rcases List.mem_cons.mp hx with hx | hx
      · subst hx
        refine ⟨hvc, ?_⟩
        intro hk
        rcases hvm with hvm | hvm
        · exact absurd hk hvm
        · refine ⟨hvm, ?_⟩
          rcases hvs with hvs | hvs
          · rw [hk] at hvs
            cases hvs
          · exact hvs
      · exact blockPairs_mem c rest hrest x hx

theorem blockMapping_iff (n : Node) :
    blockMapping n = true ↔
      n.Kind = Kind.MappingNode ∧ n.Value = "" ∧ blockPairs n.Column n.Content = true := by
  cases n with
  | mk k v c cs tg sty =>
    simp [blockMapping, Node.Kind, Node.Value, Node.Column, Node.Content, and_assoc]

theorem withContent_self (n : Node) : n.withContent n.Content = n := by
  cases n with
  | mk k v c cs tg sty => rfl

/-- In a block mapping lying to the right of the reference column, nothing
matches. -/
theorem replaceFuel_quiet (v : String) (cr : Int) (k : String) (ks : List String)
    (hk : bareIdentifier k = true) :
    ∀ (fuel : Nat) (m : Node), m.height ≤ fuel → blockMapping m = true → cr < m.Column →
      replaceFuel fuel m (k :: ks) v cr = .ret false "" cr m := by
  intro fuel
  induction fuel with
  | zero =>
    intro m hh _ _
    rw [height_eq] at hh
    omega
  | succ fuel ih =>
    intro m hh hb hc
    obtain ⟨hkind, _, hpairs⟩ := (blockMapping_iff m).mp hb
    have hq := replaceLoop_quiet (replaceFuel fuel) v cr (k :: ks) k (-1) m.Content []
      m.Content.length (by
        intro x hx
        obtain ⟨h1, h2⟩ := blockPairs_mem m.Column m.Content hpairs x hx
        refine ⟨lt_of_lt_of_le hc h1, ?_⟩
        intro hxk
        obtain ⟨h3, h4⟩ := h2 hxk
        have hxh : x.height ≤ fuel := by
          have := height_le_heightList hx
          rw [height_eq] at hh
          omega
        exact ih x hxh h3 (lt_trans hc h4))
    simp only [List.length_nil, List.nil_append] at hq
    rw [replaceFuel, replaceBody]
    simp only [getPositionKeyValue_bare hk, hkind]
    simp only [hq, Outcome.map, withContent_self]
    simp



/-! ## A search that finds the key -/

/-- A pair whose key has another name is passed over when the search inside
its value finds nothing. -/
theorem replaceLoop_skip_pair (rec : Node → List String → String → Int → Outcome Node)
    (v : String) (mc : Int) (keys : List String) (k : String) (position : Int) (n : Nat)
    (done : List Node) (key value : Node) (rest : List Node)
    (hd : done.length % 2 = 0)
    (hkk : key.Kind = Kind.ScalarNode) (hkc : key.Column = mc) (hkv : key.Value ≠ k)
    (hvc : mc ≤ value.Column)
    (hq : value.Kind = Kind.MappingNode → rec value keys v mc = .ret false "" mc value) :
    replaceLoop rec v mc (n + 2) done.length (done ++ key :: value :: rest)
        ⟨keys, k, position, mc, false, ""⟩
      = replaceLoop rec v mc n (done ++ [key, value]).length ((done ++ [key, value]) ++ rest)
        ⟨keys, k, position, mc, false, ""⟩ := by
  have hm : ¬ (done.length % 2 = 0 ∧ key.Value = k ∧ key.Column = mc) := fun h => hkv h.2.1
  have hk1 : key.Kind ≠ Kind.MappingNode := by rw [hkk]; decide
  have hc1 : ¬ key.Column < mc := by rw [hkc]; exact lt_irrefl _
  rw [replaceLoop_skip rec v mc (n + 1) done key (value :: rest) _ hm hk1 hc1]
  have e1 : done.length + 1 = (done ++ [key]).length := by simp
  have e2 : done ++ key :: value :: rest = (done ++ [key]) ++ value :: rest := by simp
  have e3 : (done ++ [key, value]).length = (done ++ [key]).length + 1 := by simp
  have e4 : (done ++ [key, value]) ++ rest = (done ++ [key]) ++ value :: rest := by simp
  rw [e3, e4, e1, e2]
  have hm2 : ¬ ((done ++ [key]).length % 2 = 0 ∧ value.Value = k ∧ value.Column = mc) := by
    intro h
    have := h.1
    simp only [List.length_append, List.length_singleton] at this
    omega
  have hc2 : ¬ value.Column < mc := not_lt.mpr hvc
  by_cases hk : value.Kind = Kind.MappingNode
  · exact replaceLoop_skip_mapping rec v mc n _ value rest _ hm2 hk (hq hk) hc2
  · exact replaceLoop_skip rec v mc n _ value rest _ hm2 hk hc2

theorem lookupPairs_updatePairs (k : String) (value' : Node) :
    ∀ (rest : List Node) (value : Node), lookupPairs k rest = some value →
      lookupPairs k (updatePairs k value' rest) = some value'
  | [], _, h => by simp [lookupPairs] at h
  | [_], _, h => by simp [lookupPairs] at h
  | key :: value0 :: rest, value, h => by
    by_cases hk : key.Value = k
    · simp [updatePairs, lookupPairs, hk]
    · simp only [lookupPairs, hk, if_false] at h
      simp only [updatePairs, lookupPairs, hk, if_false]
      exact lookupPairs_updatePairs k value' rest value h

/-- Last segment: the loop over the pairs of a block mapping reaches the
first key named `k`, returns the text of its scalar value and overwrites
it. -/
theorem replaceLoop_scan_last (rec : Node → List String → String → Int → Outcome Node)
    (v : String) (mc : Int) (k : String) (F : Nat)
    (hquiet : ∀ x : Node, x.height ≤ F → blockMapping x = true → mc < x.Column →
      rec x [k] v mc = .ret false "" mc x) :
    ∀ (rest done : List Node) (value : Node), blockPairs mc rest = true →
      done.length % 2 = 0 → (∀ x ∈ rest, x.height ≤ F) →
      lookupPairs k rest = some value → value.Kind = Kind.ScalarNode →
      replaceLoop rec v mc rest.length done.length (done ++ rest) ⟨[k], k, -1, mc, false, ""⟩
        = .ret true value.Value value.Column
            (done ++ updatePairs k (value.SetString v) rest)
  | [], _, _, _, _, _, h, _ => by simp [lookupPairs] at h
  | [_], _, _, _, _, _, h, _ => by simp [lookupPairs] at h
  | key :: value0 :: rest, done, value, hb, hd, hh, hl, hs => by
    have hmem := blockPairs_mem mc _ hb
    simp only [blockPairs, Bool.and_eq_true, beq_iff_eq, decide_eq_true_eq, Bool.or_eq_true,
      bne_iff_ne, ne_eq] at hb
    obtain ⟨⟨⟨⟨⟨hkk, hkc⟩, hvc⟩, _⟩, _⟩, hrest⟩ := hb
    by_cases hk : key.Value = k
    · simp only [lookupPairs, hk, if_true, Option.some.injEq] at hl
      subst hl
      simp only [updatePairs, hk, if_true, List.length_cons]
      exact replaceLoop_match_scalar rec v mc _ done key value0 rest _ ⟨hd, hk, hkc⟩
        (by simp) hs
    · simp only [lookupPairs, hk, if_false] at hl
      simp only [updatePairs, hk, if_false, List.length_cons]
      rw [replaceLoop_skip_pair rec v mc [k] k (-1) rest.length done key value0 rest hd hkk hkc
        hk hvc
        (fun hvk => hquiet value0 (hh value0 (by simp))
          ((hmem value0 (by simp)).2 hvk).1 ((hmem value0 (by simp)).2 hvk).2)]
      have := replaceLoop_scan_last rec v mc k F hquiet rest (done ++ [key, value0]) value hrest
        (by simp; omega) (fun x hx => hh x (by simp [hx])) hl hs
      rw [this]
      simp

/-- Inner segment: the loop reaches the first key named `k`, goes on with the
next segment inside its value, and stops with what is found there. -/
theorem replaceLoop_scan_descend (rec : Node → List String → String → Int → Outcome Node)
    (v : String) (mc : Int) (k k2 : String) (ks : List String) (F : Nat)
    (hk2 : bareIdentifier k2 = true)
    (hquiet : ∀ x : Node, x.height ≤ F → blockMapping x = true → mc < x.Column →
      rec x (k :: k2 :: ks) v mc = .ret false "" mc x) :
    ∀ (rest done : List Node) (value value' : Node) (old : String) (col : Int),
      blockPairs mc rest = true →
      done.length % 2 = 0 → (∀ x ∈ rest, x.height ≤ F) →
      lookupPairs k rest = some value → value.Kind = Kind.MappingNode →
      rec value (k2 :: ks) v value.Column = .ret true old col value' →
      value'.Column < col →
      replaceLoop rec v mc rest.length done.length (done ++ rest)
          ⟨k :: k2 :: ks, k, -1, mc, false, ""⟩
        = .ret true old col (done ++ updatePairs k value' rest)
  | [], _, _, _, _, _, _, _, _, h, _, _, _ => by simp [lookupPairs] at h
  | [_], _, _, _, _, _, _, _, _, h, _, _, _ => by simp [lookupPairs] at h
  | key :: value0 :: rest, done, value, value', old, col, hb, hd, hh, hl, hs, hr, hc => by
    have hmem := blockPairs_mem mc _ hb
    simp only [blockPairs, Bool.and_eq_true, beq_iff_eq, decide_eq_true_eq, Bool.or_eq_true,
      bne_iff_ne, ne_eq] at hb
    obtain ⟨⟨⟨⟨⟨hkk, hkc⟩, hvc⟩, _⟩, _⟩, hrest⟩ := hb
    by_cases hk : key.Value = k
    · simp only [lookupPairs, hk, if_true, Option.some.injEq] at hl
      subst hl
      simp only [updatePairs, hk, if_true, List.length_cons]
      rw [replaceLoop_match_descend rec v mc _ done key value0 rest _ ⟨k2, -1, none⟩
        ⟨hd, hk, hkc⟩ (by simp) (by rw [hs]; decide)
        (by simp [getPositionKeyValue_bare hk2])]
      have e1 : done.length + 1 = (done ++ [key]).length := by simp
      have e2 : done ++ key :: value0 :: rest = (done ++ [key]) ++ value0 :: rest := by simp
      have e3 : done ++ key :: value' :: rest = (done ++ [key]) ++ value' :: rest := by simp
      rw [e1, e2, e3]
      exact replaceLoop_found_in rec v mc _ _ value0 value' rest _ true old col
        (by simp; omega) hs hr hc
    · simp only [lookupPairs, hk, if_false] at hl
      simp only [updatePairs, hk, if_false, List.length_cons]
      rw [replaceLoop_skip_pair rec v mc _ k (-1) rest.length done key value0 rest hd hkk hkc
        hk hvc
        (fun hvk => hquiet value0 (hh value0 (by simp))
          ((hmem value0 (by simp)).2 hvk).1 ((hmem value0 (by simp)).2 hvk).2)]
      have := replaceLoop_scan_descend rec v mc k k2 ks F hk2 hquiet rest (done ++ [key, value0])
        value value' old col hrest
        (by simp; omega) (fun x hx => hh x (by simp [hx])) hl hs hr hc
      rw [this]
      simp



theorem lookupPairs_block (mc : Int) (k : String) :
    ∀ (rest : List Node) (value : Node), blockPairs mc rest = true →
      lookupPairs k rest = some value →
      value ∈ rest ∧ (value.Kind ≠ Kind.SequenceNode → mc < value.Column)
  | [], _, _, h => by simp [lookupPairs] at h
  | [_], _, _, h => by simp [lookupPairs] at h
  | key :: value0 :: rest, value, hb, hl => by
    simp only [blockPairs, Bool.and_eq_true, beq_iff_eq, decide_eq_true_eq, Bool.or_eq_true,
      bne_iff_ne, ne_eq] at hb
    obtain ⟨⟨⟨⟨_, _⟩, hvs⟩, _⟩, hrest⟩ := hb
    by_cases hk : key.Value = k
    · simp only [lookupPairs, hk, if_true, Option.some.injEq] at hl
      subst hl
      refine ⟨by simp, ?_⟩
      intro hns
      rcases hvs with hvs | hvs
      · exact absurd hvs hns
      · exact hvs
    · simp only [lookupPairs, hk, if_false] at hl
      obtain ⟨h1, h2⟩ := lookupPairs_block mc k rest value hrest hl
      exact ⟨by simp [h1], h2⟩

theorem withContent_fields (n : Node) (cs : List Node) :
    (n.withContent cs).Kind = n.Kind ∧ (n.withContent cs).Value = n.Value ∧
      (n.withContent cs).Column = n.Column ∧ (n.withContent cs).Content = cs := by
  cases n with
  | mk k v c cs0 tg sty => exact ⟨rfl, rfl, rfl, rfl⟩

theorem lookup_single (n : Node) (k : String) :
    lookup n [k] = (lookupPairs k n.Content).bind
      (fun x => if x.Kind = Kind.ScalarNode then some x.Value else none) := by
  rw [lookup]
  cases lookupPairs k n.Content <;> rfl

theorem lookup_cons (n : Node) (k k2 : String) (ks : List String) :
    lookup n (k :: k2 :: ks) = (lookupPairs k n.Content).bind
      (fun x => if x.Kind = Kind.MappingNode then lookup x (k2 :: ks) else none) := by
  cases h : lookupPairs k n.Content <;> simp [lookup, h]

/-- In a block mapping, a path of bare identifiers that denotes a scalar is
resolved by `replace` called with the column of the mapping: the scalar's old
text is returned, the column returned lies to the right of the mapping, and
the path denotes the new text afterwards. -/
theorem replaceFuel_lookup (v : String) :
    ∀ (fuel : Nat) (n : Node) (keys : List String) (old : String), n.height ≤ fuel →
      blockMapping n = true → (∀ k ∈ keys, bareIdentifier k = true) →
      lookup n keys = some old →
      ∃ col cs', replaceFuel fuel n keys v n.Column = .ret true old col (n.withContent cs')
        ∧ n.Column < col ∧ lookup (n.withContent cs') keys = some v := by
  intro fuel
  induction fuel with
  | zero =>
    intro n _ _ hh _ _ _
    rw [height_eq] at hh
    omega
  | succ fuel ih =>
    intro n keys old hh hb hkeys hl
    obtain ⟨hkind, _, hpairs⟩ := (blockMapping_iff n).mp hb
    have hheight : ∀ x ∈ n.Content, x.height ≤ fuel := by
      intro x hx
      have := height_le_heightList hx
      rw [height_eq] at hh
      omega
    have hdoc : ¬ n.Kind = Kind.DocumentNode := by rw [hkind]; decide
    cases keys with
    | nil => simp [lookup] at hl
    | cons k ks =>
      have hk : bareIdentifier k = true := hkeys k (by simp)
      have hquiet : ∀ x : Node, x.height ≤ fuel → blockMapping x = true → n.Column < x.Column →
          replaceFuel fuel x (k :: ks) v n.Column = .ret false "" n.Column x :=
        fun x h1 h2 h3 => replaceFuel_quiet v n.Column k ks hk fuel x h1 h2 h3
      cases ks with
      | nil =>
        rw [lookup_single] at hl
        cases hp : lookupPairs k n.Content with
        | none => simp [hp] at hl
        | some value =>
          rw [hp] at hl
          simp only [Option.some_bind] at hl
          by_cases hs : value.Kind = Kind.ScalarNode
          · simp only [hs, if_true, Option.some.injEq] at hl
            obtain ⟨_, hvc⟩ := lookupPairs_block n.Column k n.Content value hpairs hp
            replace hvc := hvc (by rw [hs]; decide)
            have hscan := replaceLoop_scan_last (replaceFuel fuel) v n.Column k fuel hquiet
              n.Content [] value hpairs (by simp) hheight hp hs
            simp only [List.length_nil, List.nil_append] at hscan
            refine ⟨value.Column, updatePairs k (value.SetString v) n.Content, ?_, hvc, ?_⟩
            · rw [replaceFuel, replaceBody]
              simp only [getPositionKeyValue_bare hk, hdoc, if_false, hscan, Outcome.map, hl]
            · rw [lookup_single, (withContent_fields n _).2.2.2,
                lookupPairs_updatePairs k _ n.Content value hp]
              simp [Node.SetString, Node.Kind, Node.Value]
          · simp [hs] at hl
      | cons k2 ks2 =>
        rw [lookup_cons] at hl
        cases hp : lookupPairs k n.Content with
        | none => simp [hp] at hl
        | some value =>
          rw [hp] at hl
          simp only [Option.some_bind] at hl
          by_cases hs : value.Kind = Kind.MappingNode
          · simp only [hs, if_true] at hl
            obtain ⟨hvm, hvc⟩ := lookupPairs_block n.Column k n.Content value hpairs hp
            replace hvc := hvc (by rw [hs]; decide)
            have hvb : blockMapping value = true :=
              ((blockPairs_mem n.Column n.Content hpairs value hvm).2 hs).1
            obtain ⟨col, cs', hr, hcol, hl'⟩ := ih value (k2 :: ks2) old (hheight value hvm) hvb
              (fun k' hk' => hkeys k' (by simp [List.mem_cons] at hk' ⊢; tauto)) hl
            have hscan := replaceLoop_scan_descend (replaceFuel fuel) v n.Column k k2 ks2 fuel
              (hkeys k2 (by simp)) hquiet n.Content [] value (value.withContent cs') old col
              hpairs (by simp) hheight hp hs hr
              (by rw [(withContent_fields value cs').2.2.1]; exact hcol)
            simp only [List.length_nil, List.nil_append] at hscan
            refine ⟨col, updatePairs k (value.withContent cs') n.Content, ?_,
              lt_trans hvc hcol, ?_⟩
            · rw [replaceFuel, replaceBody]
              simp only [getPositionKeyValue_bare hk, hdoc, if_false, hscan, Outcome.map]
            · rw [lookup_cons, (withContent_fields n _).2.2.2,
                lookupPairs_updatePairs k _ n.Content value hp]
              simp only [Option.some_bind, (withContent_fields value cs').1, hs, if_true]
              exact hl'
          · simp [hs] at hl

/-- A document whose root is a block mapping at column 1: a path of bare
identifiers that denotes a scalar is resolved from the document node. -/
theorem replace_document_lookup (root : Node) (keys : List String) (newValue old : String)
    (hroot : blockMapping root = true) (hcol : root.Column = 1)
    (hkeys : ∀ k ∈ keys, bareIdentifier k = true)
    (hpath : lookup root keys = some old) :
    ∃ column root', replace (document root) keys newValue 1
        = .ret true old column (document root') ∧ lookup root' keys = some newValue := by
  obtain ⟨col, cs', hr, hlt, hl⟩ :=
    replaceFuel_lookup newValue root.height root keys old (le_refl _) hroot hkeys hpath
  obtain ⟨hkind, hval, _⟩ := (blockMapping_iff root).mp hroot
  rw [hcol] at hr hlt
  cases keys with
  | nil => simp [lookup] at hpath
  | cons k ks =>
    have hk : bareIdentifier k = true := hkeys k (by simp)
    have hne : k ≠ "" := by
      unfold bareIdentifier at hk
      simp only [Bool.and_eq_true, bne_iff_ne, ne_eq] at hk
      exact hk.1
    have hheight : (document root).height = root.height + 1 := by
      simp [document, Node.height, heightList]
    have hstep := replaceLoop_found_in (replaceFuel root.height) newValue 1 0 [] root
      (root.withContent cs') [] ⟨k :: ks, k, -1, 1, false, ""⟩ true old col
      (by
        intro h
        rw [hval] at h
        exact hne h.2.1.symm)
      hkind hr (by rw [(withContent_fields root cs').2.2.1, hcol]; exact hlt)
    simp only [List.length_nil, List.nil_append] at hstep
    refine ⟨col, root.withContent cs', ?_, hl⟩
    have hdk : (document root).Kind = Kind.DocumentNode := rfl
    have hdc : (document root).Content = [root] := rfl
    have hdw : (document root).withContent [root.withContent cs']
        = document (root.withContent cs') := rfl
    have hns : ¬ (root.Kind = Kind.SequenceNode ∧ isPositionKey k = true) := by
      rw [hkind]
      simp
    unfold replace
    rw [hheight, replaceFuel, replaceBody]
    simp only [getPositionKeyValue_bare hk, hdk, hdc, List.head?_cons, hns, if_true, if_false,
      List.length_singleton, zero_add, hstep, Outcome.map, hdw]

/-! ## The bound on the recursion is never reached -/

theorem heightList_le_iff (cs : List Node) (H : Nat) :
    heightList cs ≤ H ↔ ∀ x ∈ cs, x.height ≤ H := by
  induction cs with
  | nil => simp [heightList]
  | cons c cs ih => simp [heightList, ih]

theorem heightList_set_le (cs : List Node) (i : Nat) (x : Node) (H : Nat)
    (h : heightList cs ≤ H) (hx : x.height ≤ H) : heightList (cs.set i x) ≤ H := by
  rw [heightList_le_iff] at h ⊢
  intro y hy
  rcases List.mem_or_eq_of_mem_set hy with hy | hy
  · exact h y hy
  · rw [hy]; exact hx

theorem elemAt_mem {α : Type} {s : List α} {i : Int} {e : α} (h : elemAt s i = some e) :
    e ∈ s := by
  unfold elemAt at h
  split at h
  · cases h
  · exact List.get?_mem h

theorem height_withContent (n : Node) (cs : List Node) :
    (n.withContent cs).height = heightList cs + 1 := by
  simp [Node.withContent, Node.height]

theorem height_SetString (n : Node) (s : String) : (n.SetString s).height = n.height := by
  cases n with
  | mk k v c cs tg sty => simp [Node.SetString, Node.height, Node.Content]

/-- When the recursive calls return (no `starved`) and do not make a tree
higher, the loop returns, and does not make the list of children higher. -/
theorem replaceLoop_within (rec : Node → List String → String → Int → Outcome Node)
    (v : String) (cr : Int) (F : Nat)
    (hrec : ∀ (x : Node) (ks : List String) (c : Int), x.height ≤ F →
      (rec x ks v c).within Node.height x.height) :
    ∀ (n index : Nat) (content : List Node) (st : LoopState) (H : Nat), H ≤ F →
      heightList content ≤ H →
      (replaceLoop rec v cr n index content st).within heightList H := by
  intro n
  induction n with
  | zero =>
    intro index content st H _ hc
    rw [replaceLoop]
    exact hc
  | succ n ih =>
    intro index content st H hHF hc
    have hmem := (heightList_le_iff content H).mp hc
    rw [replaceLoop]
    cases h0 : content.get? index with
    | none => exact hc
    | some c =>
      have hch : c.height ≤ H := hmem c (List.get?_mem h0)
      dsimp only
      by_cases hm : index % 2 = 0 ∧ c.Value = st.key ∧ c.Column = cr
      · rw [if_pos hm]
        cases h1 : content.get? (index + 1) with
        | none =>
          dsimp only
          split <;> trivial
        | some next =>
          have hnh : next.height ≤ H := hmem next (List.get?_mem h1)
          have hnc : heightList next.Content < H := by
            rw [height_eq] at hnh
            omega
          dsimp only
          by_cases hlen : st.keys.length > 1
          · rw [if_pos hlen]
            by_cases hs : next.Kind = Kind.SequenceNode
            · rw [if_pos hs]
              cases h2 : next.Content.head? with
              | none => trivial
              | some first =>
                dsimp only
                by_cases hf : first.Kind = Kind.MappingNode
                · rw [if_pos hf]
                  by_cases hp : positionIndex st.position > next.Content.length
                  · rw [if_pos hp]
                    exact hc
                  · rw [if_neg hp]
                    cases h3 : elemAt next.Content (positionIndex st.position) with
                    | none => trivial
                    | some elem =>
                      have hel : elem.height ≤ heightList next.Content :=
                        height_le_heightList (elemAt_mem h3)
                      have hr := hrec elem st.keys.tail elem.Column (by omega)
                      dsimp only
                      cases h4 : rec elem st.keys.tail v elem.Column with
                      | panic => trivial
                      | starved => rw [h4] at hr; exact hr
                      | ret b o col elem' =>
                        rw [h4] at hr
                        have hr' : elem'.height ≤ elem.height := hr
                        dsimp only
                        cases h5 : st.keys.tail.head?.bind getPositionKeyValue with
                        | none => trivial
                        | some kp =>
                          dsimp only
                          apply ih _ _ _ H hHF
                          apply heightList_set_le _ _ _ _ hc
                          rw [height_withContent]
                          have := heightList_set_le next.Content
                            (positionIndex st.position).toNat elem' (heightList next.Content)
                            (le_refl _) (le_trans hr' hel)
                          omega
                · rw [if_neg hf]
                  cases h5 : st.keys.tail.head?.bind getPositionKeyValue with
                  | none => trivial
                  | some kp => exact ih _ _ _ H hHF hc
            · rw [if_neg hs]
              cases h5 : st.keys.tail.head?.bind getPositionKeyValue with
              | none => trivial
              | some kp => exact ih _ _ _ H hHF hc
          · rw [if_neg hlen]
            by_cases hs : next.Kind = Kind.ScalarNode
            · rw [if_pos hs]
              apply heightList_set_le _ _ _ _ hc
              rw [height_SetString]
              exact hnh
            · rw [if_neg hs]
              by_cases hq : next.Kind = Kind.SequenceNode
              · rw [if_pos hq]
                split
                · exact hc
                · split
                  · trivial
                  · exact hc
              · rw [if_neg hq]
                exact ih _ _ _ H hHF hc
      · rw [if_neg hm]
        by_cases hk : c.Kind = Kind.MappingNode
        · rw [if_pos hk]
          have hr := hrec c st.keys st.column (le_trans hch hHF)
          cases h4 : rec c st.keys v st.column with
          | panic => trivial
          | starved => rw [h4] at hr; exact hr
          | ret b o col c' =>
            rw [h4] at hr
            have hr' : c'.height ≤ c.height := hr
            have hset : heightList (content.set index c') ≤ H :=
              heightList_set_le _ _ _ _ hc (le_trans hr' hch)
            dsimp only
            split
            · exact hset
            · exact ih _ _ _ H hHF hset
        · rw [if_neg hk]
          split
          · exact hc
          · exact ih _ _ _ H hHF hc

theorem within_map {α β : Type} (sa : α → Nat) (sb : β → Nat) (f : α → β) (H H' : Nat)
    (o : Outcome α) (ho : o.within sa H) (hf : ∀ t, sa t ≤ H → sb (f t) ≤ H') :
    (o.map f).within sb H' := by
  cases o with
  | ret b old col t => exact hf t ho
  | panic => trivial
  | starved => exact ho

theorem replaceRootSequence_within (rec : Node → List String → String → Int → Outcome Node)
    (entry seq first : Node) (keys : List String) (v : String) (position : Int) (F : Nat)
    (hrec : ∀ (x : Node) (ks : List String) (c : Int), x.height ≤ F →
      (rec x ks v c).within Node.height x.height)
    (hseq : entry.Content.head? = some seq) (hF : seq.height ≤ F) :
    (replaceRootSequence rec entry seq first keys v position).within Node.height
      entry.height := by
  have hself : (Outcome.ret false "" 0 entry).within Node.height entry.height := le_refl _
  unfold replaceRootSequence
  split
  · split
    · split
      · exact hself
      · cases h3 : elemAt seq.Content (positionIndex position) with
        | none => trivial
        | some elem =>
          have hel : elem.height ≤ heightList seq.Content := height_le_heightList (elemAt_mem h3)
          have hsh := height_eq seq
          dsimp only
          apply within_map Node.height Node.height _ elem.height entry.height _
            (hrec elem keys.tail elem.Column (by omega))
          intro t ht
          rw [height_withContent, height_eq entry]
          cases hcs : entry.Content with
          | nil => rw [hcs] at hseq; cases hseq
          | cons s tl =>
            rw [hcs] at hseq
            simp only [List.head?_cons, Option.some.injEq] at hseq
            subst hseq
            simp only [List.tail_cons, heightList, height_withContent]
            have := heightList_set_le s.Content (positionIndex position).toNat t
              (heightList s.Content) (le_refl _) (le_trans ht hel)
            omega
    · split
      · exact hself
      · split
        · trivial
        · exact le_refl _
  · split
    · split
      · exact hself
      · split
        · trivial
        · exact le_refl _
    · exact hself

/-- With a bound at least the height of `entry`, the bounded recursion
returns or panics: the bound is not reached, and the tree returned is not
higher than `entry`. -/
theorem replaceFuel_within (v : String) :
    ∀ (fuel : Nat) (entry : Node) (keys : List String) (c : Int), entry.height ≤ fuel →
      (replaceFuel fuel entry keys v c).within Node.height entry.height := by
  intro fuel
  induction fuel with
  | zero =>
    intro entry _ _ hh
    rw [height_eq] at hh
    omega
  | succ fuel ih =>
    intro entry keys c hh
    have hH : heightList entry.Content ≤ fuel := by
      rw [height_eq] at hh
      omega
    have hloop : ∀ st, ((replaceLoop (replaceFuel fuel) v c entry.Content.length 0
        entry.Content st).map entry.withContent).within Node.height entry.height := by
      intro st
      apply within_map heightList Node.height _ (heightList entry.Content) entry.height _
        (replaceLoop_within (replaceFuel fuel) v c fuel ih _ 0 entry.Content st _ hH (le_refl _))
      intro t ht
      rw [height_withContent, height_eq entry]
      omega
    cases keys with
    | nil =>
      rw [replaceFuel, replaceBody]
      trivial
    | cons k0 ks =>
      rw [replaceFuel, replaceBody]
      cases getPositionKeyValue k0 with
      | none => trivial
      | some kp =>
        dsimp only
        split
        · cases hhead : entry.Content.head? with
          | none => trivial
          | some seq =>
            dsimp only
            split
            · cases seq.Content.head? with
              | none => trivial
              | some first =>
                have hsh : seq.height ≤ fuel :=
                  le_trans (height_le_heightList (List.mem_of_mem_head? hhead)) hH
                exact replaceRootSequence_within (replaceFuel fuel) entry seq first _ v _ fuel ih
                  hhead hsh
            · exact hloop _
        · exact hloop _

/-- The bound on the recursion depth that `replace` uses is never reached. -/
theorem replaceFuel_ne_starved (entry : Node) (keys : List String) (v : String) (c : Int) :
    replace entry keys v c ≠ .starved := by
  intro h
  have := replaceFuel_within v entry.height entry keys c (le_refl _)
  unfold replace at h
  rw [h] at this
  exact this

/-! ## The claims -/

/-- Claim C1 as stated fails: in `a: &x` / `  b: 1` the root key `a` is at
column 1 and the key `b` of the nested block mapping at column 3, the path
`a.b` names keys level by level and ends at the scalar `1`; the nested
mapping node itself sits at the column of its anchor (4), which `replace`
takes as the reference column, so the key `b` is not matched and the result
is found=false. -/
theorem replace_anchored_mapping_not_found :
    lookup rootAnchored ["a", "b"] = some "1" ∧
      replace (document rootAnchored) ["a", "b"] "2" 1
        = .ret false "" 4 (document rootAnchored) :=
  ⟨by decide, rfl⟩

/-- Claim C1, amended: in a document whose root is a block mapping at column
1, where every mapping node has an empty `Value` and sits at the column of
its keys, the keys are scalars, every value lies strictly to the right of its
key (a sequence may start at the column of its key) and nested mappings are
of the same kind, a path of bare identifiers (non-empty, without refused
characters) that names, level by level, the first key of that name and ends
at a scalar is resolved by `replace`: it returns found with the scalar's old
text, and afterwards the path denotes the new text. -/
theorem replace_resolves_nested_path (root : Node) (keys : List String)
    (newValue old : String)
    (hroot : blockMapping root = true) (hcol : root.Column = 1)
    (hkeys : ∀ k ∈ keys, bareIdentifier k = true)
    (hpath : lookup root keys = some old) :
    ∃ column root', replace (document root) keys newValue 1
        = .ret true old column (document root') ∧ lookup root' keys = some newValue :=
  replace_document_lookup root keys newValue old hroot hcol hkeys hpath

/-- Claim C1, amended, at path `a.c.d` of the document `a: {b: 1, c: {d: 2}}`
with the new value `3`. -/
theorem replace_resolves_nested_path_witness :
    blockMapping rootNested = true ∧ rootNested.Column = 1 ∧
      (∀ k ∈ ["a", "c", "d"], bareIdentifier k = true) ∧
      lookup rootNested ["a", "c", "d"] = some "2" ∧
      ∃ column root', replace (document rootNested) ["a", "c", "d"] "3" 1
        = .ret true "2" column (document root') ∧ lookup root' ["a", "c", "d"] = some "3" :=
  ⟨by decide, by decide, by decide, by decide,
    replace_resolves_nested_path rootNested ["a", "c", "d"] "3" "2"
      (by decide) (by decide) (by decide) (by decide)⟩

/-- Claim C2, evaluated where it fails: on the document `a: 1`, `Condition`
for key `a` and expected value `2` finds the key with another value and
returns true. -/
theorem Condition_other_value :
    replace docSingle (split "a") "2" 1 = .ret true "1" 4 docSingleSet ∧
    Condition ⟨"", "", "a", "2", false⟩ docSingle = some true :=
  ⟨rfl, rfl⟩

/-- Claim C3: whenever the call of `replace` made by `Target` returns,
`Target` returns `changed = false` if the key was not found, `changed = false`
if it was found with the new value as its previous value, and `changed = true`
if it was found with another previous value, for either value of `DryRun`;
the file is rewritten exactly when `changed` is true and `DryRun` is false. -/
theorem Target_changed (y : Yaml) (out : Node) (found : Bool) (old : String) (column : Int)
    (out' : Node) (h : replace out (split y.Key) y.Value 1 = .ret found old column out') :
    ∃ r, Target y out = some r ∧ r.out = out' ∧
      (found = false → r.changed = false) ∧
      (found = true → old = y.Value → r.changed = false) ∧
      (found = true → old ≠ y.Value → r.changed = true) ∧
      (r.written = if r.changed = true ∧ y.DryRun = false then some out' else none) := by
  unfold Target
  rw [h]
  cases found with
  | false => simp
  | true =>
    by_cases he : old = y.Value
    · simp [he]
    · cases hd : y.DryRun <;> simp [he, hd]

/-- Claim C3 on the document `a: {b: 1, c: {d: 2}}` with key `a.c.d` and new
value `3`. -/
theorem Target_changed_witness :
    replace docNested (split "a.c.d") "3" 1 = .ret true "2" 8 docNestedSet ∧
      ∃ r, Target ⟨"", "", "a.c.d", "3", false⟩ docNested = some r ∧ r.changed = true :=
  ⟨rfl, by
    obtain ⟨r, h1, _, _, _, h5, _⟩ := Target_changed ⟨"", "", "a.c.d", "3", false⟩ docNested
      true "2" 8 _ rfl
    exact ⟨r, h1, h5 rfl (by decide)⟩⟩

/-- Claim C4, evaluated where it fails: in a list of four mapping elements,
`list[2].version` returns and overwrites the version of the fourth element
(index 3), and `list[3].version` reports that nothing was found. -/
theorem replace_third_element_hits_fourth :
    replace docReleases ["list[2]", "version"] "5" 1 = .ret true "4" 14 docReleasesFourth ∧
    replace docReleases ["list[3]", "version"] "5" 1 = .ret false "" 0 docReleases :=
  ⟨rfl, rfl⟩

/-- Claim C5, evaluated where it fails: in a list of two scalars, resolving
`list[2]` ends in an index-out-of-range panic. -/
theorem replace_index_at_length_panics :
    replace docItems ["list[2]"] "z" 1 = .panic :=
  rfl

/-- Claim C6, evaluated where it fails: in `a: {b: 1}, q: 5` the path `a.q`
does not exist, yet `replace` reports it found, returns the text of the root
key `q` and overwrites it. -/
theorem replace_missing_key_hits_later_sibling :
    lookup (mapping 1 [scalar "a" 1, mapping 3 [scalar "b" 3, integer "1" 6],
      scalar "q" 1, integer "5" 4]) ["a", "q"] = none ∧
    replace docSibling ["a", "q"] "3" 1 = .ret true "5" 4 docSiblingRootSet :=
  ⟨by decide, rfl⟩

/-- Claim C7 as stated fails, in two ways.  In `a: {name: inner}, name: outer`,
with the nested mapping in flow style, `name` is a key of the root mapping at
column 1 and a key of the mapping under `a` at column 5, and `replace` with
path `a.name` returns the text of the root occurrence and overwrites it.  In
the block document `a:` / `  my_name: inner` / `my_name: outer` the key name
holds the refused character `_`: path `a.my_name` returns found=false and
path `my_name` panics. -/
theorem replace_scoping_flow_mapping :
    replace docFlow ["a", "name"] "new" 1 = .ret true "outer" 7 docFlowRootSet ∧
      blockMapping rootUnderscore = true ∧
      lookup rootUnderscore ["a", "my_name"] = some "inner" ∧
      lookup rootUnderscore ["my_name"] = some "outer" ∧
      replace (document rootUnderscore) ["a", "my_name"] "new" 1
        = .ret false "" 3 (document rootUnderscore) ∧
      replace (document rootUnderscore) ["my_name"] "new" 1 = .panic :=
  ⟨rfl, by decide, by decide, by decide, rfl, rfl⟩

/-- Claim C7, amended: in a document whose root is a block mapping at column
1 (every mapping node with an empty `Value` and at the column of its scalar
keys, every value strictly to the right of its key, a sequence possibly at
the column of its key, nested mappings of the same kind), where `a` and
`name` are bare identifiers (non-empty, without refused characters), `name`
is a key of the root mapping with a scalar value and also a key with a scalar
value of the mapping that is the value of the root key `a` (whichever comes
first), `replace` with path `a.name` returns the text of the nested
occurrence and `replace` with path `name` returns the text of the root
occurrence. -/
theorem replace_scoping (root : Node) (a name inner outer newValue : String)
    (hroot : blockMapping root = true) (hcol : root.Column = 1)
    (ha : bareIdentifier a = true) (hname : bareIdentifier name = true)
    (hinner : lookup root [a, name] = some inner)
    (houter : lookup root [name] = some outer) :
    (∃ column t, replace (document root) [a, name] newValue 1 = .ret true inner column t) ∧
    (∃ column t, replace (document root) [name] newValue 1 = .ret true outer column t) := by
  constructor
  · obtain ⟨column, root', h, _⟩ := replace_document_lookup root [a, name] newValue inner
      hroot hcol (by
        intro k hk
        simp only [List.mem_cons, List.mem_singleton, List.not_mem_nil, or_false] at hk
        rcases hk with hk | hk <;> rw [hk] <;> assumption) hinner
    exact ⟨column, _, h⟩
  · obtain ⟨column, root', h, _⟩ := replace_document_lookup root [name] newValue outer
      hroot hcol (by
        intro k hk
        simp only [List.mem_singleton] at hk
        rw [hk]
        exact hname) houter
    exact ⟨column, _, h⟩

/-- Claim C7, amended, on the block document `a:` / `  name: inner` /
`name: outer`. -/
theorem replace_scoping_witness :
    lookup rootScoped ["a", "name"] = some "inner" ∧
      lookup rootScoped ["name"] = some "outer" ∧
      (∃ column t, replace (document rootScoped) ["a", "name"] "new" 1
        = .ret true "inner" column t) ∧
      (∃ column t, replace (document rootScoped) ["name"] "new" 1
        = .ret true "outer" column t) :=
  ⟨by decide, by decide,
    replace_scoping rootScoped "a" "name" "inner" "outer" "new"
      (by decide) (by decide) (by decide) (by decide) (by decide) (by decide)⟩

/-- Claim C8, evaluated where it fails: on the document `list: [x, y]`,
`Target` with key `list[1]` and value `z` returns `changed = true` and leaves
the tree as it was, and applied again to the tree it leaves it returns
`changed = true` again. -/
theorem Target_twice_on_sequence_item :
    Target requestItem docItems = some ⟨true, docItems, some docItems⟩ ∧
    (Target requestItem docItems).bind (fun r => (Target requestItem r.out).map
      (fun r2 => r2.changed)) = some true :=
  ⟨rfl, rfl⟩

/-- Claim C9, evaluated where it fails: on the document `list: [x, y]`,
`replace` with path `list[1]` and new value `z` returns found with the old
text `y` and leaves every scalar of the tree as it was. -/
theorem replace_sequence_item_not_overwritten :
    replace docItems ["list[1]"] "z" 1 = .ret true "y" 5 docItems :=
  rfl

/-- Claim C10, evaluated where it fails: for the token `a|b`,
`getPositionKeyValue` returns the empty name with the error for that token,
and `replace` on the document `a: 1` then ends in an index-out-of-range
panic. -/
theorem replace_forbidden_character_panics :
    getPositionKeyValue "a|b" = some ⟨"", -1, some (.invalidSegment "a|b")⟩ ∧
    replace docSingle ["a|b"] "5" 1 = .panic :=
  ⟨by decide, rfl⟩

/-! ## Tokens -/

theorem dropWhile_leading {α : Type} (p : α → Bool) (x : α) (rest : List α) (hx : p x = false) :
    ∀ (pre : List α), (∀ c ∈ pre, p c = true) → (pre ++ x :: rest).dropWhile p = x :: rest
  | [], _ => by simp [List.dropWhile, hx]
  | c :: pre, h => by
    have hc : p c = true := h c (by simp)
    rw [List.cons_append, List.dropWhile_cons, if_pos hc]
    exact dropWhile_leading p x rest hx pre (fun d hd => h d (by simp [hd]))

theorem takeWhile_leading {α : Type} (p : α → Bool) (x : α) (rest : List α) (hx : p x = false) :
    ∀ (pre : List α), (∀ c ∈ pre, p c = true) → (pre ++ x :: rest).takeWhile p = pre
  | [], _ => by simp [List.takeWhile, hx]
  | c :: pre, h => by
    have hc : p c = true := h c (by simp)
    rw [List.cons_append, List.takeWhile_cons, if_pos hc,
      takeWhile_leading p x rest hx pre (fun d hd => h d (by simp [hd]))]

/-- A token `name[digits]` with an alphanumeric name and a non-empty numeral
in the range of `int` is split into the name and the value of the numeral. -/
theorem getPositionKeyValue_indexed (name digits : List Char)
    (hname : ∀ c ∈ name, isAlnum c = true) (hdigits : ∀ c ∈ digits, isDigit c = true)
    (hne : digits ≠ []) (hrange : digitsValue digits ≤ 2 ^ 63 - 1) :
    getPositionKeyValue (String.mk (name ++ '[' :: digits ++ [']']))
      = some ⟨String.mk name, (digitsValue digits : Int), none⟩ := by
  have hpos : isPositionKey (String.mk (name ++ '[' :: digits ++ [']'])) = true := by
    unfold isPositionKey
    have hrev : (String.mk (name ++ '[' :: digits ++ [']'])).toList.reverse
        = ']' :: (name ++ '[' :: digits).reverse := by
      simp
    rw [hrev]
    simp only [List.reverse_reverse]
    rw [dropWhile_leading isAlnum '[' digits (by decide) name hname]
    simp only [List.all_cons, Bool.and_eq_true, List.all_eq_true]
    refine ⟨by decide, ?_⟩
    intro c hc
    simp [isBracketOrDigit, hdigits c hc]
  have hsub : findSubmatch (String.mk (name ++ '[' :: digits ++ [']']))
      = some (String.mk name, String.mk digits) := by
    unfold findSubmatch
    have h1 : (String.mk (name ++ '[' :: digits ++ [']'])).toList
        = name ++ '[' :: (digits ++ [']']) := by simp
    rw [h1, dropWhile_leading isAlnum '[' (digits ++ [']']) (by decide) name hname,
      takeWhile_leading isAlnum '[' (digits ++ [']']) (by decide) name hname]
    simp only
    rw [dropWhile_leading isDigit ']' [] (by decide) digits hdigits,
      takeWhile_leading isDigit ']' [] (by decide) digits hdigits]
    simp
  have hatoi : atoi (String.mk digits) = .ok (digitsValue digits : Int) := by
    unfold atoi
    have h1 : (String.mk digits).toList = digits := rfl
    rw [h1, if_neg hne, if_pos hrange]
  unfold getPositionKeyValue
  rw [hpos, hsub]
  simp only [if_true, hatoi]

/-- Claim C11, evaluated where it fails: the token `a]` is not of the form
`identifier[digits]` and contains the refused character `]`; it passes the
pattern of `isPositionKey`, the submatch that follows fails, and
`getPositionKeyValue` panics on `keys[1]`. -/
theorem getPositionKeyValue_closing_bracket_panics :
    containsAny "a]" specialChars = true ∧ isPositionKey "a]" = true ∧
      findSubmatch "a]" = none ∧ getPositionKeyValue "a]" = none :=
  ⟨by decide, by decide, by decide, by decide⟩

/-- Claim C12: for every token `name[digits]` whose name is alphanumeric and
whose digits are a non-empty decimal numeral within the range of `int`,
`getPositionKeyValue` returns the name, the value of the numeral and no
error. -/
theorem getPositionKeyValue_name_index (name digits : List Char)
    (hname : ∀ c ∈ name, isAlnum c = true) (hdigits : ∀ c ∈ digits, isDigit c = true)
    (hne : digits ≠ []) (hrange : digitsValue digits ≤ 2 ^ 63 - 1) :
    getPositionKeyValue (String.mk (name ++ '[' :: digits ++ [']']))
      = some ⟨String.mk name, (digitsValue digits : Int), none⟩ :=
  getPositionKeyValue_indexed name digits hname hdigits hne hrange

/-- Claim C12 on the token `list[12]`. -/
theorem getPositionKeyValue_name_index_witness :
    getPositionKeyValue "list[12]" = some ⟨"list", 12, none⟩ :=
  getPositionKeyValue_name_index ['l', 'i', 's', 't'] ['1', '2']
    (by decide) (by decide) (by decide) (by decide)

/-- Claim C13, evaluated where it fails: in a document whose root is a
sequence of four mapping elements, `x[2].version` returns and overwrites the
version of the fourth element (index 3). Same defect as C4. -/
theorem replace_root_sequence_third_hits_fourth :
    replace docRootReleases ["x[2]", "version"] "5" 1
      = .ret true "4" 12 docRootReleasesFourth :=
  rfl

/-- Claim C14, evaluated where it fails: with paths of bare identifiers,
`replace` panics when the last segment names a key whose value is a sequence,
and when an inner segment names a key whose value is an empty sequence. -/
theorem replace_bare_key_on_sequence_panics :
    replace docItems ["list"] "z" 1 = .panic ∧
      replace docEmptyList ["list", "x"] "z" 1 = .panic :=
  ⟨rfl, rfl⟩

/-- Claim C15: for every token that contains none of the refused characters,
`getPositionKeyValue` returns the token unchanged, the index -1 and no
error. -/
theorem getPositionKeyValue_plain_token (k : String)
    (h : containsAny k specialChars = false) :
    getPositionKeyValue k = some ⟨k, -1, none⟩ := by
  unfold getPositionKeyValue
  rw [isPositionKey_eq_false h, h]
  simp

/-- Claim C15 on the token `version`. -/
theorem getPositionKeyValue_plain_token_witness :
    containsAny "version" specialChars = false ∧
      getPositionKeyValue "version" = some ⟨"version", -1, none⟩ :=
  ⟨by decide, getPositionKeyValue_plain_token "version" (by decide)⟩

/-! ## A mapping of scalars -/

theorem matchPairs_isSome_iff (k : String) (c : Int) :
    ∀ (l : List Node), l.length % 2 = 0 →
      ((∃ value, matchPairs k c l = some value) ↔
        ∃ i key, i % 2 = 0 ∧ l.get? i = some key ∧ key.Value = k ∧ key.Column = c)
  | [], _ => by simp [matchPairs]
  | [_], h => by simp at h
  | key :: value :: rest, h => by
    have hrest : rest.length % 2 = 0 := by
      simp only [List.length_cons] at h
      omega
    have ih := matchPairs_isSome_iff k c rest hrest
    by_cases hm : key.Value = k ∧ key.Column = c
    · simp only [matchPairs, hm, and_self, if_true, Option.some.injEq, exists_eq', true_iff]
      exact ⟨0, key, by simp, by simp, hm.1, hm.2⟩
    · simp only [matchPairs, hm, if_false]
      rw [ih]
      constructor
      · rintro ⟨i, x, hi, hx, hv, hc⟩
        exact ⟨i + 2, x, by omega, by simpa using hx, hv, hc⟩
      · rintro ⟨i, x, hi, hx, hv, hc⟩
        match i, hi, hx with
        | 0, _, hx =>
          simp only [List.get?_cons_zero, Option.some.injEq] at hx
          subst hx
          exact absurd ⟨hv, hc⟩ hm
        | 1, hi, _ => omega
        | j + 2, hi, hx =>
          exact ⟨j, x, by omega, by simpa using hx, hv, hc⟩

/-- The loop over children that are all scalars at or to the right of the
reference column: the first key with the text and the column sought decides
the result. -/
theorem replaceLoop_scalars (rec : Node → List String → String → Int → Outcome Node)
    (v : String) (c : Int) (k : String) :
    ∀ (rest done : List Node), (∀ x ∈ rest, x.Kind = Kind.ScalarNode ∧ c ≤ x.Column) →
      rest.length % 2 = 0 → done.length % 2 = 0 →
      (∀ value, matchPairs k c rest = some value →
        ∃ rest', replaceLoop rec v c rest.length done.length (done ++ rest)
          ⟨[k], k, -1, c, false, ""⟩ = .ret true value.Value value.Column (done ++ rest')) ∧
      (matchPairs k c rest = none →
        replaceLoop rec v c rest.length done.length (done ++ rest)
          ⟨[k], k, -1, c, false, ""⟩ = .ret false "" c (done ++ rest))
  | [], done, _, _, _ => by
    constructor
    · intro value h
      simp [matchPairs] at h
    · intro _
      rw [List.length_nil, replaceLoop]
  | [_], _, _, h, _ => by simp at h
  | key :: value0 :: rest, done, hs, hl, hd => by
    have hrest : rest.length % 2 = 0 := by
      simp only [List.length_cons] at hl
      omega
    have hkey := hs key (by simp)
    have hval := hs value0 (by simp)
    by_cases hm : key.Value = k ∧ key.Column = c
    · simp only [matchPairs, hm, and_self, if_true, Option.some.injEq, List.length_cons]
      constructor
      · intro value hv
        subst hv
        exact ⟨_, replaceLoop_match_scalar rec v c _ done key value0 rest _ ⟨hd, hm.1, hm.2⟩
          (by simp) hval.1⟩
      · intro h
        cases h
    · have ih := replaceLoop_scalars rec v c k rest (done ++ [key, value0])
        (fun x hx => hs x (by simp [hx])) hrest (by simp; omega)
      have hstep : replaceLoop rec v c (rest.length + 1 + 1) done.length
          (done ++ key :: value0 :: rest) ⟨[k], k, -1, c, false, ""⟩
          = replaceLoop rec v c rest.length (done ++ [key, value0]).length
            ((done ++ [key, value0]) ++ rest) ⟨[k], k, -1, c, false, ""⟩ := by
        rw [replaceLoop_skip rec v c (rest.length + 1) done key (value0 :: rest) _
          (fun h => hm ⟨h.2.1, h.2.2⟩) (by rw [hkey.1]; decide) (not_lt.mpr hkey.2)]
        have e1 : done.length + 1 = (done ++ [key]).length := by simp
        have e2 : done ++ key :: value0 :: rest = (done ++ [key]) ++ value0 :: rest := by simp
        have e3 : (done ++ [key, value0]).length = (done ++ [key]).length + 1 := by simp
        have e4 : (done ++ [key, value0]) ++ rest = (done ++ [key]) ++ value0 :: rest := by simp
        rw [e3, e4, e1, e2]
        exact replaceLoop_skip rec v c rest.length _ value0 rest _
          (by
            intro h
            have := h.1
            simp only [List.length_append, List.length_singleton] at this
            omega)
          (by rw [hval.1]; decide) (not_lt.mpr hval.2)
      simp only [matchPairs, hm, if_false, List.length_cons]
      rw [hstep]
      constructor
      · intro value hv
        obtain ⟨rest', hr⟩ := ih.1 value hv
        exact ⟨key :: value0 :: rest', by rw [hr]; simp⟩
      · intro hv
        rw [ih.2 hv]
        simp

/-- Claim C17: for every mapping node whose children are all scalars with
columns not below the reference column `c` (an even number of them, keys and
values alternating) and every bare identifier `k`, `replace` with the single
segment `k` and reference column `c` returns found exactly when some child at
an even index has text `k` and column `c`; the previous value it returns is
then the text of the value paired with the first such key. -/
theorem replace_mapping_of_scalars (n : Node) (k v : String) (c : Int)
    (hkind : n.Kind = Kind.MappingNode)
    (hscalars : ∀ x ∈ n.Content, x.Kind = Kind.ScalarNode ∧ c ≤ x.Column)
    (heven : n.Content.length % 2 = 0)
    (hk : bareIdentifier k = true) :
    ∃ found old col t, replace n [k] v c = .ret found old col t ∧
      (found = true ↔
        ∃ i key, i % 2 = 0 ∧ n.Content.get? i = some key ∧ key.Value = k ∧ key.Column = c) ∧
      (found = true → (matchPairs k c n.Content).map Node.Value = some old) := by
  have hloop := replaceLoop_scalars (replaceFuel (heightList n.Content)) v c k n.Content []
    hscalars heven (by simp)
  simp only [List.length_nil, List.nil_append] at hloop
  have hdoc : ¬ n.Kind = Kind.DocumentNode := by rw [hkind]; decide
  have hiff := matchPairs_isSome_iff k c n.Content heven
  have hrun : replace n [k] v c
      = (replaceLoop (replaceFuel (heightList n.Content)) v c n.Content.length 0 n.Content
          ⟨[k], k, -1, c, false, ""⟩).map n.withContent := by
    unfold replace
    rw [height_eq, replaceFuel, replaceBody]
    simp only [getPositionKeyValue_bare hk, hdoc, if_false]
  cases hm : matchPairs k c n.Content with
  | none =>
    refine ⟨false, "", c, n, ?_, ?_, ?_⟩
    · rw [hrun, hloop.2 hm, Outcome.map, withContent_self]
    · constructor
      · intro h
        cases h
      · intro h
        obtain ⟨value, hv⟩ := hiff.mpr h
        rw [hm] at hv
        cases hv
    · intro h
      cases h
  | some value =>
    obtain ⟨rest', hr⟩ := hloop.1 value hm
    refine ⟨true, value.Value, value.Column, n.withContent rest', ?_, ?_, ?_⟩
    · rw [hrun, hr, Outcome.map]
    · constructor
      · intro _
        exact hiff.mp ⟨value, hm⟩
      · intro _
        rfl
    · intro _
      rfl

/-- Claim C17 on the mapping `name: x, version: 1` at column 5 with the key
`version`. -/
theorem replace_mapping_of_scalars_witness :
    ∃ found old col t, replace (release "x" "1") ["version"] "2" 5 = .ret found old col t ∧
      (found = true ↔ ∃ i key, i % 2 = 0 ∧ (release "x" "1").Content.get? i = some key ∧
        key.Value = "version" ∧ key.Column = 5) ∧
      (found = true → (matchPairs "version" 5 (release "x" "1").Content).map Node.Value
        = some old) :=
  replace_mapping_of_scalars (release "x" "1") "version" "2" 5 (by decide) (by decide)
    (by decide) (by decide)

/-! ## An unindexed segment and index 0 -/

/-- While a further segment remains, the loop runs alike for the positions
-1 and 0 of the first segment: both give `positionIndex` 0. -/
theorem replaceLoop_unindexed (rec : Node → List String → String → Int → Outcome Node)
    (v : String) (cr : Int) (kA kB k2 : String) (ks : List String)
    (hrec : ∀ (x : Node) (col : Int), x.Kind = Kind.MappingNode →
      rec x (kA :: k2 :: ks) v col = rec x (kB :: k2 :: ks) v col) :
    ∀ (n index : Nat) (content : List Node) (key : String) (col : Int) (vf : Bool)
      (old : String),
      replaceLoop rec v cr n index content ⟨kA :: k2 :: ks, key, -1, col, vf, old⟩
        = replaceLoop rec v cr n index content ⟨kB :: k2 :: ks, key, 0, col, vf, old⟩ := by
  intro n
  induction n with
  | zero =>
    intro index content key col vf old
    rw [replaceLoop, replaceLoop]
  | succ n ih =>
    intro index content key col vf old
    have hp : positionIndex (-1) = positionIndex 0 := by decide
    rw [replaceLoop, replaceLoop]
    cases h0 : content.get? index with
    | none => rfl
    | some c =>
      dsimp only
      by_cases hm : index % 2 = 0 ∧ c.Value = key ∧ c.Column = cr
      · have hlA : (kA :: k2 :: ks).length > 1 := by simp
        have hlB : (kB :: k2 :: ks).length > 1 := by simp
        rw [if_pos hm, if_pos hm, if_pos hlA, if_pos hlB, List.tail_cons, List.tail_cons, hp]
      · rw [if_neg hm, if_neg hm]
        by_cases hk : c.Kind = Kind.MappingNode
        · rw [if_pos hk, if_pos hk, hrec c col hk]
          cases rec c (kB :: k2 :: ks) v col with
          | panic => rfl
          | starved => rfl
          | ret b o cl c' =>
            dsimp only
            split
            · rfl
            · exact ih _ _ _ _ _ _
        · rw [if_neg hk, if_neg hk]
          split
          · rfl
          · exact ih _ _ _ _ _ _

theorem containsAny_alnum (k : String) (hk : ∀ ch ∈ k.toList, isAlnum ch = true) :
    containsAny k specialChars = false := by
  unfold containsAny
  rw [List.any_eq_false]
  intro ch hch hc
  have hs : ∀ s ∈ specialChars, isAlnum s = false := by decide
  have hmem : ch ∈ specialChars := by simpa using hc
  have h := hk ch hch
  rw [hs ch hmem] at h
  cases h

theorem getPositionKeyValue_alnum (k : String) (hk : ∀ ch ∈ k.toList, isAlnum ch = true) :
    getPositionKeyValue k = some ⟨k, -1, none⟩ := by
  have h := containsAny_alnum k hk
  unfold getPositionKeyValue
  rw [isPositionKey_eq_false h, h]
  simp

theorem getPositionKeyValue_index_zero (k : String)
    (hk : ∀ ch ∈ k.toList, isAlnum ch = true) :
    getPositionKeyValue (k ++ "[0]") = some ⟨k, 0, none⟩ := by
  have h := getPositionKeyValue_indexed k.toList ['0'] hk (by decide) (by decide) (by decide)
  have e : k ++ "[0]" = String.mk (k.toList ++ '[' :: ['0'] ++ [']']) := by
    apply String.ext
    simp
  rw [e, h]
  rfl

/-- On a mapping node, a path whose first segment is the bare name `k` and a
path whose first segment is `k[0]` give the same outcome when a further
segment follows. -/
theorem replaceFuel_unindexed (v : String) (k k2 : String) (ks : List String)
    (hk : ∀ ch ∈ k.toList, isAlnum ch = true) :
    ∀ (fuel : Nat) (x : Node) (c : Int), x.Kind = Kind.MappingNode →
      replaceFuel fuel x (k :: k2 :: ks) v c = replaceFuel fuel x ((k ++ "[0]") :: k2 :: ks) v c := by
  intro fuel
  induction fuel with
  | zero =>
    intro x c _
    rw [replaceFuel, replaceFuel]
  | succ fuel ih =>
    intro x c hx
    have hdoc : ¬ x.Kind = Kind.DocumentNode := by rw [hx]; decide
    rw [replaceFuel, replaceFuel, replaceBody, replaceBody]
    simp only [getPositionKeyValue_alnum k hk, getPositionKeyValue_index_zero k hk, hdoc,
      if_false]
    rw [replaceLoop_unindexed (replaceFuel fuel) v c k (k ++ "[0]") k2 ks
      (fun y col hy => ih y col hy)]

/-- Claim C19 as stated fails: for the key `my-list`, whose value is a
sequence of mappings, the path `my-list.version` goes into the first element,
returns `1` and overwrites it, while `my-list[0]` does not have the form
`name[index]` with an alphanumeric name, is refused as an invalid segment,
and `replace` with the path `my-list[0].version` panics. -/
theorem replace_hyphen_key_indexed_panics :
    replace docHyphen ["my-list", "version"] "5" 1 = .ret true "1" 14 docHyphenSet ∧
      getPositionKeyValue "my-list[0]"
        = some ⟨"", -1, some (.invalidSegment "my-list[0]")⟩ ∧
      replace docHyphen ["my-list[0]", "version"] "5" 1 = .panic :=
  ⟨rfl, by decide, rfl⟩

/-- Claim C19, amended: for every tree that is not a document whose root is
a sequence, every key name `k` made of letters and digits only and every path
that goes on after it with at least one more segment, the segments `k` and
`k[0]` are both read as the key `k`, without an error, with the positions -1
and 0, for both of which the element taken from a sequence is the one at
index 0, the first; and `replace` with first segment `k` and `replace` with
first segment `k[0]` return the same results and leave the same tree. -/
theorem replace_unindexed_as_first_element (entry : Node) (k field : String)
    (ks : List String) (v : String) (c : Int)
    (hk : ∀ ch ∈ k.toList, isAlnum ch = true)
    (hroot : entry.Kind = Kind.DocumentNode →
      entry.Content.head?.map Node.Kind ≠ some Kind.SequenceNode) :
    (getPositionKeyValue k = some ⟨k, -1, none⟩ ∧
      getPositionKeyValue (k ++ "[0]") = some ⟨k, 0, none⟩ ∧
      positionIndex (-1) = 0 ∧ positionIndex 0 = 0) ∧
    replace entry (k :: field :: ks) v c = replace entry ((k ++ "[0]") :: field :: ks) v c := by
  refine ⟨⟨getPositionKeyValue_alnum k hk, getPositionKeyValue_index_zero k hk,
    by decide, by decide⟩, ?_⟩
  unfold replace
  cases entry.height with
  | zero => rw [replaceFuel, replaceFuel]
  | succ fuel =>
    have hloop := replaceLoop_unindexed (replaceFuel fuel) v c k (k ++ "[0]") field ks
      (fun y col hy => replaceFuel_unindexed v k field ks hk fuel y col hy)
    rw [replaceFuel, replaceFuel, replaceBody, replaceBody]
    simp only [getPositionKeyValue_alnum k hk, getPositionKeyValue_index_zero k hk]
    by_cases hdoc : entry.Kind = Kind.DocumentNode
    · rw [if_pos hdoc, if_pos hdoc]
      cases hhead : entry.Content.head? with
      | none => rfl
      | some s =>
        have hs : ¬ s.Kind = Kind.SequenceNode := by
          intro h
          apply hroot hdoc
          rw [hhead, Option.map_some', h]
        simp only [hs, false_and, if_false]
        rw [hloop]
    · rw [if_neg hdoc, if_neg hdoc, hloop]

/-- Claim C19, amended, on the document `list: [{name: x, version: 1}, ...]`: the paths
`list.version` and `list[0].version` both return `1` and overwrite the
version of the first element. -/
theorem replace_unindexed_as_first_element_witness :
    replace docReleases ["list", "version"] "5" 1
        = replace docReleases ["list[0]", "version"] "5" 1 ∧
      replace docReleases ["list", "version"] "5" 1 = .ret true "1" 14 docReleasesFirst :=
  ⟨(replace_unindexed_as_first_element docReleases "list" "version" [] "5" 1 (by decide)
    (by decide)).2, rfl⟩

/-! ## What a call may change -/

mutual
theorem sameFrame_refl : ∀ (a : Node), sameFrame a a = true
  | .mk k v c cs tg sty => by
    simp only [sameFrame, beq_self_eq_true, Bool.or_true, Bool.and_self, Bool.true_and]
    exact sameFrameList_refl cs
theorem sameFrameList_refl : ∀ (l : List Node), sameFrameList l l = true
  | [] => by simp [sameFrameList]
  | a :: l => by
    simp only [sameFrameList, Bool.and_eq_true]
    exact ⟨sameFrame_refl a, sameFrameList_refl l⟩
end

mutual
theorem sameFrame_trans : ∀ (a b c : Node), sameFrame a b = true → sameFrame b c = true →
    sameFrame a c = true
  | .mk k v c cs tg sty, .mk k2 v2 c2 cs2 tg2 sty2, .mk k3 v3 c3 cs3 tg3 sty3, h1, h2 => by
    simp only [sameFrame, Bool.and_eq_true, beq_iff_eq, Bool.or_eq_true] at h1 h2 ⊢
    obtain ⟨⟨⟨hk, hc⟩, hv⟩, hl⟩ := h1
    obtain ⟨⟨⟨hk2, hc2⟩, hv2⟩, hl2⟩ := h2
    refine ⟨⟨⟨hk.trans hk2, hc.trans hc2⟩, ?_⟩, sameFrameList_trans cs cs2 cs3 hl hl2⟩
    rcases hv with hv | hv
    · exact Or.inl hv
    · rcases hv2 with hv2 | hv2
      · exact Or.inl (hk.trans hv2)
      · exact Or.inr ⟨⟨hv.1.1.trans hv2.1.1, hv.1.2.trans hv2.1.2⟩, hv.2.trans hv2.2⟩
theorem sameFrameList_trans : ∀ (l l2 l3 : List Node), sameFrameList l l2 = true →
    sameFrameList l2 l3 = true → sameFrameList l l3 = true
  | [], [], [], _, _ => by simp [sameFrameList]
  | [], [], _ :: _, _, h2 => by simp [sameFrameList] at h2
  | [], _ :: _, _, h1, _ => by simp [sameFrameList] at h1
  | _ :: _, [], _, h1, _ => by simp [sameFrameList] at h1
  | _ :: _, _ :: _, [], _, h2 => by simp [sameFrameList] at h2
  | a :: l, b :: l2, c :: l3, h1, h2 => by
    simp only [sameFrameList, Bool.and_eq_true] at h1 h2 ⊢
    exact ⟨sameFrame_trans a b c h1.1 h2.1, sameFrameList_trans l l2 l3 h1.2 h2.2⟩
end

/-- Exchanging one element for a tree with the same frame keeps the frame of
the list. -/
theorem sameFrameList_set : ∀ (l0 l : List Node) (i : Nat) (x y : Node),
    sameFrameList l0 l = true → l.get? i = some x → sameFrame x y = true →
    sameFrameList l0 (l.set i y) = true
  | [], [], _, _, _, _, h, _ => by simp at h
  | [], _ :: _, _, _, _, h, _, _ => by simp [sameFrameList] at h
  | _ :: _, [], _, _, _, h, _, _ => by simp [sameFrameList] at h
  | a :: l0, b :: l, 0, x, y, h, hg, hxy => by
    simp only [List.get?_cons_zero, Option.some.injEq] at hg
    subst hg
    simp only [sameFrameList, Bool.and_eq_true, List.set_cons_zero] at h ⊢
    exact ⟨sameFrame_trans a b y h.1 hxy, h.2⟩
  | a :: l0, b :: l, i + 1, x, y, h, hg, hxy => by
    simp only [List.get?_cons_succ] at hg
    simp only [sameFrameList, Bool.and_eq_true, List.set_cons_succ] at h ⊢
    exact ⟨h.1, sameFrameList_set l0 l i x y h.2 hg hxy⟩

theorem sameFrame_SetString (x : Node) (s : String) (h : x.Kind = Kind.ScalarNode) :
    sameFrame x (x.SetString s) = true := by
  cases x with
  | mk k v c cs tg sty =>
    simp only [Node.Kind] at h
    subst h
    simp [Node.SetString, sameFrame, Node.Column, Node.Content, sameFrameList_refl]

theorem sameFrame_withContent (x : Node) (cs : List Node)
    (h : sameFrameList x.Content cs = true) : sameFrame x (x.withContent cs) = true := by
  cases x with
  | mk k v c cs0 tg sty =>
    simp only [Node.Content] at h
    simp [Node.withContent, sameFrame, Node.Kind, Node.Value, Node.Column, Node.Tag,
      Node.Style, h]

theorem elemAt_get? {α : Type} {s : List α} {i : Int} {e : α} (h : elemAt s i = some e) :
    s.get? i.toNat = some e := by
  unfold elemAt at h
  split at h
  · cases h
  · exact h

/-- When the recursive calls keep the frame of the tree they are given, the
loop keeps the frame of the list of children. -/
theorem replaceLoop_frame (rec : Node → List String → String → Int → Outcome Node)
    (v : String) (cr : Int)
    (hrec : ∀ (x : Node) (ks : List String) (c : Int),
      (rec x ks v c).holds (fun t => sameFrame x t = true))
    (l0 : List Node) :
    ∀ (n index : Nat) (content : List Node) (st : LoopState),
      sameFrameList l0 content = true →
      (replaceLoop rec v cr n index content st).holds (fun t => sameFrameList l0 t = true) := by
  intro n
  induction n with
  | zero =>
    intro index content st hc
    rw [replaceLoop]
    exact hc
  | succ n ih =>
    intro index content st hc
    rw [replaceLoop]
    cases h0 : content.get? index with
    | none => exact hc
    | some c =>
      dsimp only
      by_cases hm : index % 2 = 0 ∧ c.Value = st.key ∧ c.Column = cr
      · rw [if_pos hm]
        cases h1 : content.get? (index + 1) with
        | none =>
          dsimp only
          split <;> trivial
        | some next =>
          dsimp only
          by_cases hlen : st.keys.length > 1
          · rw [if_pos hlen]
            by_cases hs : next.Kind = Kind.SequenceNode
            · rw [if_pos hs]
              cases h2 : next.Content.head? with
              | none => trivial
              | some first =>
                dsimp only
                by_cases hf : first.Kind = Kind.MappingNode
                · rw [if_pos hf]
                  by_cases hp : positionIndex st.position > next.Content.length
                  · rw [if_pos hp]
                    exact hc
                  · rw [if_neg hp]
                    cases h3 : elemAt next.Content (positionIndex st.position) with
                    | none => trivial
                    | some elem =>
                      have hr := hrec elem st.keys.tail elem.Column
                      dsimp only
                      cases h4 : rec elem st.keys.tail v elem.Column with
                      | panic => trivial
                      | starved => trivial
                      | ret b o col elem' =>
                        rw [h4] at hr
                        have hr' : sameFrame elem elem' = true := hr
                        dsimp only
                        cases h5 : st.keys.tail.head?.bind getPositionKeyValue with
                        | none => trivial
                        | some kp =>
                          dsimp only
                          apply ih
                          apply sameFrameList_set l0 content (index + 1) next _ hc h1
                          apply sameFrame_withContent
                          exact sameFrameList_set next.Content next.Content _ elem elem'
                            (sameFrameList_refl _) (elemAt_get? h3) hr'
                · rw [if_neg hf]
                  cases h5 : st.keys.tail.head?.bind getPositionKeyValue with
                  | none => trivial
                  | some kp => exact ih _ _ _ hc
            · rw [if_neg hs]
              cases h5 : st.keys.tail.head?.bind getPositionKeyValue with
              | none => trivial
              | some kp => exact ih _ _ _ hc
          · rw [if_neg hlen]
            by_cases hs : next.Kind = Kind.ScalarNode
            · rw [if_pos hs]
              exact sameFrameList_set l0 content (index + 1) next _ hc h1
                (sameFrame_SetString next v hs)
            · rw [if_neg hs]
              by_cases hq : next.Kind = Kind.SequenceNode
              · rw [if_pos hq]
                split
                · exact hc
                · split
                  · trivial
                  · exact hc
              · rw [if_neg hq]
                exact ih _ _ _ hc
      · rw [if_neg hm]
        by_cases hk : c.Kind = Kind.MappingNode
        · rw [if_pos hk]
          have hr := hrec c st.keys st.column
          cases h4 : rec c st.keys v st.column with
          | panic => trivial
          | starved => trivial
          | ret b o col c' =>
            rw [h4] at hr
            have hset : sameFrameList l0 (content.set index c') = true :=
              sameFrameList_set l0 content index c c' hc h0 hr
            dsimp only
            split
            · exact hset
            · exact ih _ _ _ hset
        · rw [if_neg hk]
          split
          · exact hc
          · exact ih _ _ _ hc

theorem holds_map {α β : Type} (P : α → Prop) (Q : β → Prop) (f : α → β) (o : Outcome α)
    (ho : o.holds P) (hf : ∀ t, P t → Q (f t)) : (o.map f).holds Q := by
  cases o with
  | ret b old col t => exact hf t ho
  | panic => trivial
  | starved => trivial

theorem replaceRootSequence_frame (rec : Node → List String → String → Int → Outcome Node)
    (entry seq first : Node) (keys : List String) (v : String) (position : Int)
    (hrec : ∀ (x : Node) (ks : List String) (c : Int),
      (rec x ks v c).holds (fun t => sameFrame x t = true))
    (hseq : entry.Content.head? = some seq) :
    (replaceRootSequence rec entry seq first keys v position).holds
      (fun t => sameFrame entry t = true) := by
  have hself : (Outcome.ret false "" 0 entry).holds (fun t => sameFrame entry t = true) :=
    sameFrame_refl entry
  unfold replaceRootSequence
  split
  · split
    · split
      · exact hself
      · cases h3 : elemAt seq.Content (positionIndex position) with
        | none => trivial
        | some elem =>
          dsimp only
          apply holds_map _ _ _ _ (hrec elem keys.tail elem.Column)
          intro t ht
          apply sameFrame_withContent
          cases hcs : entry.Content with
          | nil => rw [hcs] at hseq; cases hseq
          | cons s tl =>
            rw [hcs] at hseq
            simp only [List.head?_cons, Option.some.injEq] at hseq
            subst hseq
            simp only [List.tail_cons, sameFrameList, Bool.and_eq_true]
            refine ⟨?_, sameFrameList_refl tl⟩
            apply sameFrame_withContent
            exact sameFrameList_set s.Content s.Content _ elem t (sameFrameList_refl _)
              (elemAt_get? h3) ht
    · split
      · exact hself
      · split
        · trivial
        · exact sameFrame_refl entry
  · split
    · split
      · exact hself
      · split
        · trivial
        · exact sameFrame_refl entry
    · exact hself

/-- Whatever `replace` returns, the tree it leaves has the frame of the tree
it was given. -/
theorem replaceFuel_frame (v : String) :
    ∀ (fuel : Nat) (entry : Node) (keys : List String) (c : Int),
      (replaceFuel fuel entry keys v c).holds (fun t => sameFrame entry t = true) := by
  intro fuel
  induction fuel with
  | zero =>
    intro entry keys c
    rw [replaceFuel]
    trivial
  | succ fuel ih =>
    intro entry keys c
    have hloop : ∀ st, ((replaceLoop (replaceFuel fuel) v c entry.Content.length 0
        entry.Content st).map entry.withContent).holds (fun t => sameFrame entry t = true) := by
      intro st
      apply holds_map _ _ _ _
        (replaceLoop_frame (replaceFuel fuel) v c ih entry.Content _ 0 entry.Content st
          (sameFrameList_refl _))
      intro t ht
      exact sameFrame_withContent entry t ht
    cases keys with
    | nil =>
      rw [replaceFuel, replaceBody]
      trivial
    | cons k0 ks =>
      rw [replaceFuel, replaceBody]
      cases getPositionKeyValue k0 with
      | none => trivial
      | some kp =>
        dsimp only
        split
        · cases hhead : entry.Content.head? with
          | none => trivial
          | some seq =>
            dsimp only
            split
            · cases seq.Content.head? with
              | none => trivial
              | some first =>
                exact replaceRootSequence_frame (replaceFuel fuel) entry seq first _ v _ ih hhead
            · exact hloop _
        · exact hloop _

/-! ## A find ends the search -/

theorem set_get?_self {α : Type} : ∀ (l : List α) (i : Nat) (x : α), l.get? i = some x →
    l.set i x = l
  | [], _, _, h => by simp at h
  | a :: l, 0, x, h => by
    simp only [List.get?_cons_zero, Option.some.injEq] at h
    rw [h, List.set_cons_zero]
  | a :: l, i + 1, x, h => by
    simp only [List.get?_cons_succ] at h
    rw [List.set_cons_succ, set_get?_self l i x h]

theorem get?_set_self {α : Type} : ∀ (l : List α) (i : Nat) (x y : α), l.get? i = some x →
    (l.set i y).get? i = some y
  | [], _, _, _, h => by simp at h
  | a :: l, 0, x, y, _ => by simp
  | a :: l, i + 1, x, y, h => by
    simp only [List.get?_cons_succ] at h
    rw [List.set_cons_succ, List.get?_cons_succ]
    exact get?_set_self l i x y h

mutual
theorem changedNodes_self : ∀ (a : Node), changedNodes a a = 0
  | .mk k v c cs tg sty => by
    simp only [changedNodes, and_self, if_true, zero_add]
    exact changedNodesList_self cs
theorem changedNodesList_self : ∀ (l : List Node), changedNodesList l l = 0
  | [] => by simp [changedNodesList]
  | a :: l => by
    simp only [changedNodesList]
    rw [changedNodes_self a, changedNodesList_self l]
end

theorem changedNodesList_set : ∀ (l : List Node) (i : Nat) (x y : Node), l.get? i = some x →
    changedNodesList l (l.set i y) = changedNodes x y
  | [], _, _, _, h => by simp at h
  | a :: l, 0, x, y, h => by
    simp only [List.get?_cons_zero, Option.some.injEq] at h
    subst h
    simp only [List.set_cons_zero, changedNodesList, changedNodesList_self, add_zero]
  | a :: l, i + 1, x, y, h => by
    simp only [List.get?_cons_succ] at h
    simp only [List.set_cons_succ, changedNodesList, changedNodes_self, zero_add]
    exact changedNodesList_set l i x y h

theorem changedNodes_withContent (x : Node) (cs : List Node) :
    changedNodes x (x.withContent cs) = changedNodesList x.Content cs := by
  cases x with
  | mk k v c cs0 tg sty =>
    simp [Node.withContent, Node.Kind, Node.Value, Node.Column, Node.Tag, Node.Style,
      Node.Content, changedNodes]

theorem changedNodes_SetString (x : Node) (s : String) :
    changedNodes x (x.SetString s) ≤ 1 := by
  cases x with
  | mk k v c cs tg sty =>
    simp only [Node.SetString, Node.Content, Node.Column, changedNodes, changedNodesList_self,
      add_zero]
    split_ifs <;> omega

theorem valuesRightList_get (b : Int) : ∀ (l : List Node) (odd : Bool) (i : Nat) (y : Node),
    valuesRightList b odd l = true → l.get? i = some y →
    valuesRight b y = true ∧
      ((odd = true ↔ i % 2 = 0) → y.Kind = Kind.ScalarNode → b < y.Column)
  | [], _, _, _, _, h => by simp at h
  | a :: l, odd, 0, y, h, hg => by
    simp only [List.get?_cons_zero, Option.some.injEq] at hg
    subst hg
    simp only [valuesRightList, Bool.and_eq_true, Bool.or_eq_true, Bool.not_eq_true',
      Bool.and_eq_false_imp, beq_eq_false_iff_ne, ne_eq, decide_eq_true_eq] at h
    refine ⟨h.1.2, ?_⟩
    intro hodd hk
    have ho : odd = true := hodd.mpr (by simp)
    rcases h.1.1 with h1 | h1
    · exact absurd hk (h1 ho)
    · exact h1
  | a :: l, odd, i + 1, y, h, hg => by
    simp only [List.get?_cons_succ] at hg
    simp only [valuesRightList, Bool.and_eq_true] at h
    obtain ⟨h1, h2⟩ := valuesRightList_get b l (!odd) i y h.2 hg
    refine ⟨h1, ?_⟩
    intro hodd hk
    apply h2 _ hk
    cases odd with
    | false =>
      simp only [Bool.not_false, true_iff]
      simp only [Bool.false_eq_true, false_iff] at hodd
      omega
    | true =>
      simp only [Bool.not_true, Bool.false_eq_true, false_iff]
      simp only [true_iff] at hodd
      omega

theorem valuesRight_iff (b : Int) (x : Node) :
    valuesRight b x = true ↔ valuesRightList (max b x.Column) false x.Content = true := by
  cases x with
  | mk k v c cs tg sty => simp [valuesRight, Node.Column, Node.Content]

/-- A child at an odd index that is no mapping and lies left of the current
column ends the loop at once. -/
theorem replaceLoop_after_find (rec : Node → List String → String → Int → Outcome Node)
    (v : String) (cr : Int) (n index : Nat) (content : List Node) (x : Node) (st : LoopState)
    (hidx : index % 2 = 1) (hget : content.get? index = some x)
    (hk : x.Kind ≠ Kind.MappingNode) (hcol : x.Column < st.column) :
    replaceLoop rec v cr n index content st
      = .ret st.valueFound st.oldVersion st.column content := by
  cases n with
  | zero => rw [replaceLoop]
  | succ n =>
    have hm : ¬ (index % 2 = 0 ∧ x.Value = st.key ∧ x.Column = cr) := by
      intro h
      omega
    rw [replaceLoop, hget]
    simp only [hm, hk, hcol, if_false, if_true]

/-- The loop over unchanged children laid out to the right of `b`: when the
recursive calls on the children and on the elements of the children are
settled, the loop returns the children as they were, or else it has found the
key, changed at most one node and returns a column to the right of `b`. -/
theorem replaceLoop_settled (rec : Node → List String → String → Int → Outcome Node)
    (v : String) (cr b : Int) (content : List Node)
    (hrec : ∀ y ∈ content, ∀ (ks : List String) (c : Int), (rec y ks v c).settled y b)
    (hrec2 : ∀ s ∈ content, ∀ e ∈ s.Content, ∀ (ks : List String) (c : Int),
      (rec e ks v c).settled e (max b s.Column))
    (hval : ∀ (i : Nat) (y : Node), content.get? i = some y → i % 2 = 1 →
      y.Kind = Kind.ScalarNode → b < y.Column) :
    ∀ (n index : Nat) (st : LoopState),
      (replaceLoop rec v cr n index content st).settledList content b := by
  intro n
  induction n with
  | zero =>
    intro index st
    rw [replaceLoop]
    exact Or.inl rfl
  | succ n ih =>
    intro index st
    have hsame : ∀ (found : Bool) (o : String) (col : Int),
        (Outcome.ret found o col content).settledList content b := fun _ _ _ => Or.inl rfl
    rw [replaceLoop]
    cases h0 : content.get? index with
    | none => exact hsame _ _ _
    | some c =>
      dsimp only
      by_cases hm : index % 2 = 0 ∧ c.Value = st.key ∧ c.Column = cr
      · rw [if_pos hm]
        have hodd : (index + 1) % 2 = 1 := by omega
        cases h1 : content.get? (index + 1) with
        | none =>
          dsimp only
          split <;> trivial
        | some next =>
          dsimp only
          by_cases hlen : st.keys.length > 1
          · rw [if_pos hlen]
            by_cases hs : next.Kind = Kind.SequenceNode
            · rw [if_pos hs]
              cases h2 : next.Content.head? with
              | none => trivial
              | some first =>
                dsimp only
                by_cases hf : first.Kind = Kind.MappingNode
                · rw [if_pos hf]
                  by_cases hp : positionIndex st.position > next.Content.length
                  · rw [if_pos hp]
                    exact hsame _ _ _
                  · rw [if_neg hp]
                    cases h3 : elemAt next.Content (positionIndex st.position) with
                    | none => trivial
                    | some elem =>
                      have hr := hrec2 next (List.get?_mem h1) elem (elemAt_mem h3)
                        st.keys.tail elem.Column
                      dsimp only
                      cases h4 : rec elem st.keys.tail v elem.Column with
                      | panic => trivial
                      | starved => trivial
                      | ret found o col elem' =>
                        rw [h4] at hr
                        dsimp only
                        cases h5 : st.keys.tail.head?.bind getPositionKeyValue with
                        | none => trivial
                        | some kp =>
                          dsimp only
                          rcases hr with hr | ⟨hfound, hcol, _, hch⟩
                          · rw [hr, set_get?_self _ _ _ (elemAt_get? h3), withContent_self,
                              set_get?_self _ _ _ h1]
                            exact ih _ _
                          · have hget := get?_set_self content (index + 1) next
                              (next.withContent (next.Content.set
                                (positionIndex st.position).toNat elem')) h1
                            rw [replaceLoop_after_find rec v cr n (index + 1) _ _ _ hodd hget
                              (by rw [(withContent_fields next _).1, hs]; decide)
                              (by
                                rw [(withContent_fields next _).2.2.1]
                                exact lt_of_le_of_lt (le_max_right _ _)
                                  (lt_of_le_of_lt (le_max_left _ _) hcol))]
                            refine Or.inr ⟨hfound, ?_, ?_⟩
                            · exact lt_of_le_of_lt (le_max_left _ _)
                                (lt_of_le_of_lt (le_max_left _ _) hcol)
                            · rw [changedNodesList_set content (index + 1) next _ h1,
                                changedNodes_withContent,
                                changedNodesList_set next.Content _ elem elem' (elemAt_get? h3)]
                              exact hch
                · rw [if_neg hf]
                  cases h5 : st.keys.tail.head?.bind getPositionKeyValue with
                  | none => trivial
                  | some kp => exact ih _ _
            · rw [if_neg hs]
              cases h5 : st.keys.tail.head?.bind getPositionKeyValue with
              | none => trivial
              | some kp => exact ih _ _
          · rw [if_neg hlen]
            by_cases hs : next.Kind = Kind.ScalarNode
            · rw [if_pos hs]
              refine Or.inr ⟨rfl, hval (index + 1) next h1 hodd hs, ?_⟩
              rw [changedNodesList_set content (index + 1) next _ h1]
              exact changedNodes_SetString next v
            · rw [if_neg hs]
              by_cases hq : next.Kind = Kind.SequenceNode
              · rw [if_pos hq]
                split
                · exact hsame _ _ _
                · split
                  · trivial
                  · exact hsame _ _ _
              · rw [if_neg hq]
                exact ih _ _
      · rw [if_neg hm]
        by_cases hk : c.Kind = Kind.MappingNode
        · rw [if_pos hk]
          have hr := hrec c (List.get?_mem h0) st.keys st.column
          cases h4 : rec c st.keys v st.column with
          | panic => trivial
          | starved => trivial
          | ret found o col c' =>
            rw [h4] at hr
            dsimp only
            rcases hr with hr | ⟨hfound, hcol, hcc, hch⟩
            · rw [hr, set_get?_self _ _ _ h0]
              split
              · exact hsame _ _ _
              · exact ih _ _
            · have hlt : c'.Column < col := by
                rw [hcc]
                exact lt_of_le_of_lt (le_max_right _ _) hcol
              rw [if_pos hlt]
              refine Or.inr ⟨hfound, lt_of_le_of_lt (le_max_left _ _) hcol, ?_⟩
              rw [changedNodesList_set content index c c' h0]
              exact hch
        · rw [if_neg hk]
          split
          · exact hsame _ _ _
          · exact ih _ _

theorem settled_self (x : Node) (b : Int) (found : Bool) (o : String) (col : Int) :
    (Outcome.ret found o col x).settled x b :=
  Or.inl rfl

theorem settled_map (x : Node) (b : Int) (o : Outcome (List Node))
    (ho : o.settledList x.Content (max b x.Column)) : (o.map x.withContent).settled x b := by
  cases o with
  | panic => trivial
  | starved => trivial
  | ret found old col t =>
    rcases ho with ho | ⟨hfound, hcol, hch⟩
    · left
      rw [ho, withContent_self]
    · right
      refine ⟨hfound, hcol, (withContent_fields x t).2.2.1, ?_⟩
      rw [changedNodes_withContent]
      exact hch

theorem replaceRootSequence_settled (rec : Node → List String → String → Int → Outcome Node)
    (entry seq first : Node) (keys : List String) (v : String) (position b : Int)
    (hrec : ∀ e ∈ seq.Content, ∀ (ks : List String) (c : Int),
      (rec e ks v c).settled e (max (max b entry.Column) seq.Column))
    (hseq : entry.Content.head? = some seq) :
    (replaceRootSequence rec entry seq first keys v position).settled entry b := by
  have hself := settled_self entry b
  unfold replaceRootSequence
  split
  · split
    · split
      · exact hself _ _ _
      · cases h3 : elemAt seq.Content (positionIndex position) with
        | none => trivial
        | some elem =>
          have hr := hrec elem (elemAt_mem h3) keys.tail elem.Column
          obtain ⟨tl, hcs⟩ : ∃ tl, entry.Content = seq :: tl := by
            cases hc : entry.Content with
            | nil => rw [hc] at hseq; cases hseq
            | cons s tl =>
              rw [hc] at hseq
              simp only [List.head?_cons, Option.some.injEq] at hseq
              exact ⟨tl, by rw [hseq]⟩
          dsimp only
          cases h4 : rec elem keys.tail v elem.Column with
          | panic => trivial
          | starved => trivial
          | ret found o col elem' =>
            rw [h4] at hr
            simp only [Outcome.map]
            rcases hr with hr | ⟨hfound, hcol, _, hch⟩
            · left
              rw [hr, set_get?_self _ _ _ (elemAt_get? h3), withContent_self]
              have : seq :: entry.Content.tail = entry.Content := by rw [hcs, List.tail_cons]
              rw [this, withContent_self]
            · right
              refine ⟨hfound, ?_, (withContent_fields entry _).2.2.1, ?_⟩
              · exact lt_of_le_of_lt (le_max_left _ _)
                  (lt_of_le_of_lt (le_max_left _ _) hcol)
              · rw [changedNodes_withContent, hcs, List.tail_cons, changedNodesList,
                  changedNodesList_self, add_zero, changedNodes_withContent,
                  changedNodesList_set seq.Content _ elem elem' (elemAt_get? h3)]
                exact hch
    · split
      · exact hself _ _ _
      · split
        · trivial
        · exact hself _ _ _
  · split
    · split
      · exact hself _ _ _
      · split
        · trivial
        · exact hself _ _ _
    · exact hself _ _ _

/-- In a tree laid out with its values to the right of `b` and of the nodes
that contain them, a call of `replace` that returns leaves the tree as it
was, or else it has found the key, changed at most one node and returns a
column to the right of `b` and of the tree. -/
theorem replaceFuel_settled (v : String) :
    ∀ (fuel : Nat) (x : Node) (b : Int) (keys : List String) (c : Int),
      valuesRight b x = true → (replaceFuel fuel x keys v c).settled x b := by
  intro fuel
  induction fuel with
  | zero =>
    intro x b keys c _
    rw [replaceFuel]
    trivial
  | succ fuel ih =>
    intro x b keys c hx
    have hl := (valuesRight_iff b x).mp hx
    have hchild : ∀ y ∈ x.Content, valuesRight (max b x.Column) y = true := by
      intro y hy
      obtain ⟨i, hi⟩ := List.get?_of_mem hy
      exact (valuesRightList_get _ _ _ i y hl hi).1
    have hgrand : ∀ s ∈ x.Content, ∀ e ∈ s.Content,
        valuesRight (max (max b x.Column) s.Column) e = true := by
      intro s hs e he
      obtain ⟨i, hi⟩ := List.get?_of_mem he
      exact (valuesRightList_get _ _ _ i e ((valuesRight_iff _ s).mp (hchild s hs)) hi).1
    have hloop : ∀ st, ((replaceLoop (replaceFuel fuel) v c x.Content.length 0 x.Content
        st).map x.withContent).settled x b := by
      intro st
      apply settled_map
      apply replaceLoop_settled (replaceFuel fuel) v c (max b x.Column) x.Content
      · intro y hy ks c'
        exact ih y _ ks c' (hchild y hy)
      · intro s hs e he ks c'
        exact ih e _ ks c' (hgrand s hs e he)
      · intro i y hi hodd hk
        exact (valuesRightList_get _ _ _ i y hl hi).2 (by simp; omega) hk
    cases keys with
    | nil =>
      rw [replaceFuel, replaceBody]
      trivial
    | cons k0 ks =>
      rw [replaceFuel, replaceBody]
      cases getPositionKeyValue k0 with
      | none => trivial
      | some kp =>
        dsimp only
        split
        · cases hhead : x.Content.head? with
          | none => trivial
          | some seq =>
            dsimp only
            split
            · cases seq.Content.head? with
              | none => trivial
              | some first =>
                apply replaceRootSequence_settled (replaceFuel fuel) x seq first _ v _ b _ hhead
                intro e he ks' c'
                exact ih e _ ks' c' (hgrand seq (List.mem_of_mem_head? hhead) e he)
            · exact hloop _
        · exact hloop _

/-- Claim C16 as stated fails, in two ways.  In `docTwice` the key `k` inside
the flow mapping and the root key `k` are both at the reference column;
`replace` overwrites the value of the first, the column it returns does not
end the loop, and the value of the second is overwritten too: two nodes
change.  And `SetString` writes more than the value field: on `a: 1` with the
new value `1` the value stays what it was and the tag of the scalar changes
from `!!int` to `!!str`. -/
theorem replace_overwrites_two_scalars :
    replace docTwice ["k"] "9" 1 = .ret true "2" 4 docTwiceBothSet ∧
      changedNodes docTwice docTwiceBothSet = 2 ∧
      replace docSingle ["a"] "1" 1 = .ret true "1" 4 docSingleRetagged ∧
      changedNodes docSingle docSingleRetagged = 1 :=
  ⟨rfl, by decide, rfl, by decide⟩

/-- Claim C16, amended: for every tree, path, new value and reference column,
the tree that `replace` leaves when it returns differs from the one it was
given at most in what `SetString` writes in scalar nodes: every node keeps
its kind, its column and its children in their order, and every node that is
not a scalar keeps its `Value`, `Tag` and `Style`; and when every scalar of
the tree that is the value of a key (a child at an odd index of its parent)
lies strictly to the right of every node that contains it, at most one node
differs. -/
theorem replace_keeps_frame (entry : Node) (keys : List String) (v : String) (c : Int)
    (found : Bool) (old : String) (col : Int) (t : Node)
    (h : replace entry keys v c = .ret found old col t) :
    sameFrame entry t = true ∧ (valuesToTheRight entry = true → changedNodes entry t ≤ 1) := by
  constructor
  · have hf := replaceFuel_frame v entry.height entry keys c
    unfold replace at h
    rw [h] at hf
    exact hf
  · intro hlay
    have hs := replaceFuel_settled v entry.height entry entry.Column keys c hlay
    unfold replace at h
    rw [h] at hs
    rcases hs with hs | ⟨_, _, _, hch⟩
    · rw [hs, changedNodes_self]
      omega
    · exact hch

/-- Claim C16, amended, on the document `list: [{name: x, version: 1}, ...]`
with the path `list[1].version` and the new value `5`. -/
theorem replace_keeps_frame_witness :
    replace docReleases ["list[1]", "version"] "5" 1 = .ret true "2" 14 docReleasesSecond ∧
      valuesToTheRight docReleases = true ∧
      sameFrame docReleases docReleasesSecond = true ∧
      changedNodes docReleases docReleasesSecond ≤ 1 :=
  ⟨rfl, by decide,
    (replace_keeps_frame docReleases ["list[1]", "version"] "5" 1 true "2" 14 _ rfl).1,
    (replace_keeps_frame docReleases ["list[1]", "version"] "5" 1 true "2" 14 _ rfl).2
      (by decide)⟩

/-- Claim C18 as stated fails: in `docLost` the key `k` inside the flow
mapping is at the reference column and its value is overwritten; the column
returned does not end the loop, the search in the next mapping finds nothing,
and `replace` returns found=false with one node of the tree changed. -/
theorem replace_miss_after_overwrite :
    replace docLost ["k"] "9" 1 = .ret false "" 1 docLostSet ∧
      changedNodes docLost docLostSet = 1 :=
  ⟨rfl, by decide⟩

/-- Claim C18, amended: for every tree in which every scalar that is the
value of a key (a child at an odd index of its parent) lies strictly to the
right of every node that contains it, and for every path, new value and
reference column: if `replace` returns found=false, the tree is as it
was. -/
theorem replace_miss_keeps_tree (entry : Node) (keys : List String) (v : String) (c : Int)
    (old : String) (col : Int) (t : Node)
    (hlay : valuesToTheRight entry = true)
    (h : replace entry keys v c = .ret false old col t) :
    t = entry := by
  have hs := replaceFuel_settled v entry.height entry entry.Column keys c hlay
  unfold replace at h
  rw [h] at hs
  rcases hs with hs | ⟨hfound, _⟩
  · exact hs
  · cases hfound

/-- Claim C18, amended, on the document `list: [{name: x, version: 1}, ...]`
with the path `list[1].nope`, which names no key of the second element. -/
theorem replace_miss_keeps_tree_witness :
    valuesToTheRight docReleases = true ∧
      ∃ old col t, replace docReleases ["list[1]", "nope"] "5" 1 = .ret false old col t ∧
        t = docReleases :=
  ⟨by decide, "", 5, docReleases, rfl,
    replace_miss_keeps_tree docReleases ["list[1]", "nope"] "5" 1 "" 5 docReleases
      (by decide) rfl⟩

end Updatecli
